import Mathlib

/-!
Verification of the soroban-rpc ingestion and retrieval pipeline.

Shallow embedding of the Go sources:
* `cmd/soroban-rpc/internal/events/events.go` (event store: `Scan`,
  `validateRange`, `seek`, `IngestEvents`, `readEvents`),
* `cmd/soroban-rpc/internal/ledgerentry_storage/db.go` (entry store:
  `ledgerUpdaterTx` with buffered upserts/deletes, `Done`),
* `cmd/soroban-rpc/internal/ingest/service.go` (ingestion driver:
  `ingest`, `ingestLedgerCloseMeta`, `run`, bootstrap, retry wrapper).

Machine integers (`uint32`) are modelled as `Nat`: all arithmetic on ledger
sequences in the relevant code paths is bounds-checked by validation, so no
wrap-around is reachable there.  Fallible Go calls that live outside the
sources (SQL execs, XDR encoding, the ledger backend, the history archive)
are modelled by explicit outcome parameters.
-/

namespace Soroban

/-- Modelled from the spec: the `Cursor` type (`events/cursor.go` is not in
the sources).  A cursor is the position 4-tuple `(ledger, tx, op, event)`,
totally ordered lexicographically. -/
structure Cursor where
  ledger : Nat
  tx : Nat
  op : Nat
  event : Nat
deriving DecidableEq, Repr, Inhabited

/-- Modelled from the spec: `Cursor.Cmp`, lexicographic comparison of the
4-tuple, returning a Go-style `int` sign (`-1`, `0`, `1`). -/
def Cursor.cmp (a b : Cursor) : Int :=
  if a.ledger < b.ledger then -1
  else if b.ledger < a.ledger then 1
  else if a.tx < b.tx then -1
  else if b.tx < a.tx then 1
  else if a.op < b.op then -1
  else if b.op < a.op then 1
  else if a.event < b.event then -1
  else if b.event < a.event then 1
  else 0

/-- Strict lexicographic order on cursors, the specification-level order. -/
def Cursor.lt (a b : Cursor) : Prop :=
  a.ledger < b.ledger ∨ (a.ledger = b.ledger ∧
    (a.tx < b.tx ∨ (a.tx = b.tx ∧
      (a.op < b.op ∨ (a.op = b.op ∧ a.event < b.event)))))

instance : DecidablePred fun p : Cursor × Cursor => Cursor.lt p.1 p.2 := by
  intro p
  unfold Cursor.lt
  infer_instance

instance (a b : Cursor) : Decidable (Cursor.lt a b) := by
  unfold Cursor.lt
  infer_instance

theorem Cursor.cmp_neg_iff (a b : Cursor) : a.cmp b < 0 ↔ Cursor.lt a b := by
  cases a; cases b
  unfold Cursor.cmp Cursor.lt
  dsimp only
  split_ifs <;> norm_num <;> omega

theorem Cursor.cmp_zero_iff (a b : Cursor) : a.cmp b = 0 ↔ a = b := by
  cases a; cases b
  unfold Cursor.cmp
  simp only [Cursor.mk.injEq]
  split_ifs <;> norm_num <;> omega

theorem Cursor.cmp_pos_iff (a b : Cursor) : 0 < a.cmp b ↔ Cursor.lt b a := by
  cases a; cases b
  unfold Cursor.cmp Cursor.lt
  dsimp only
  split_ifs <;> norm_num <;> omega

theorem Cursor.cmp_nonpos_iff (a b : Cursor) :
    a.cmp b ≤ 0 ↔ (a = b ∨ Cursor.lt a b) := by
  cases a; cases b
  unfold Cursor.cmp Cursor.lt
  simp only [Cursor.mk.injEq]
  split_ifs <;> norm_num <;> omega

theorem Cursor.lt_trans {a b c : Cursor} (h1 : Cursor.lt a b) (h2 : Cursor.lt b c) :
    Cursor.lt a c := by
  unfold Cursor.lt at *
  omega

theorem Cursor.lt_irrefl (a : Cursor) : ¬ Cursor.lt a a := by
  unfold Cursor.lt
  omega

/-- A per-ledger bucket, from `ledgerbucketwindow.LedgerBucket`. -/
structure LedgerBucket (α : Type) where
  LedgerSeq : Nat
  LedgerCloseTimestamp : Int
  BucketContent : α
deriving Repr

/-- Modelled from the spec: `ledgerbucketwindow.LedgerBucketWindow` (the
package is not in the sources).  A fixed-capacity ordered sequence of
buckets; the ring-buffer representation is abstracted to the list of
buckets in window order (`Get i` is positional). -/
structure LedgerBucketWindow (α : Type) where
  capacity : Nat
  buckets : List (LedgerBucket α)
deriving Repr

def LedgerBucketWindow.Len {α : Type} (w : LedgerBucketWindow α) : Nat :=
  w.buckets.length

def LedgerBucketWindow.Get {α : Type} [Inhabited α] (w : LedgerBucketWindow α)
    (i : Nat) : LedgerBucket α :=
  w.buckets.getD i ⟨0, 0, default⟩

/-- Modelled from the spec: `append(bucket)` evicts index 0 when the window
is full, then inserts at the back.  (The contiguity check, which panics in
the real code, is a caller obligation and is stated as a hypothesis where
needed.) -/
def LedgerBucketWindow.Append {α : Type} (w : LedgerBucketWindow α)
    (b : LedgerBucket α) : LedgerBucketWindow α :=
  let bs := if w.capacity ≤ w.buckets.length then w.buckets.drop 1 else w.buckets
  { w with buckets := bs ++ [b] }

/-- Opaque stand-in for `xdr.ContractEvent`: the event store never inspects
the contents, so only an identity is modelled. -/
structure ContractEvent where
  id : Nat
deriving DecidableEq, Repr, Inhabited

/-- `event` from `events.go`: contents plus position within the ledger. -/
structure Event where
  contents : ContractEvent
  txIndex : Nat
  opIndex : Nat
  eventIndex : Nat
deriving DecidableEq, Repr, Inhabited

/-- `event.cursor(ledgerSeq)` from `events.go`. -/
def Event.cursor (e : Event) (ledgerSeq : Nat) : Cursor :=
  { ledger := ledgerSeq, tx := e.txIndex, op := e.opIndex, event := e.eventIndex }

/-- `MemoryStore` from `events.go` (the network passphrase only feeds the
external XDR reader and is dropped). -/
structure MemoryStore where
  eventsByLedger : LedgerBucketWindow (List Event)

/-- `Range` from `events.go`. -/
structure Range where
  Start : Cursor
  ClampStart : Bool
  End : Cursor
  ClampEnd : Bool
deriving DecidableEq, Repr

/-- `MemoryStore.validateRange` from `events.go`.  The Go code mutates the
range in place (clamping) and returns an error; here the clamped range is
returned on success. -/
def MemoryStore.validateRange (m : MemoryStore) (eventRange : Range) :
    Except String Range :=
  if m.eventsByLedger.Len = 0 then .error "event store is empty"
  else
    let firstBucket := m.eventsByLedger.Get 0
    let minC : Cursor := { ledger := firstBucket.LedgerSeq, tx := 0, op := 0, event := 0 }
    let step1 : Except String Range :=
      if eventRange.Start.cmp minC < 0 then
        if eventRange.ClampStart then .ok { eventRange with Start := minC }
        else .error "start is before oldest ledger"
      else .ok eventRange
    match step1 with
    | .error e => .error e
    | .ok r1 =>
      let maxC : Cursor := { ledger := minC.ledger + m.eventsByLedger.Len, tx := 0, op := 0, event := 0 }
      if 0 ≤ r1.Start.cmp maxC then .error "start is after newest ledger"
      else
        let step2 : Except String Range :=
          if 0 < r1.End.cmp maxC then
            if r1.ClampEnd then .ok { r1 with End := maxC }
            else .error "end is after latest ledger"
          else .ok r1
        match step2 with
        | .error e => .error e
        | .ok r2 =>
          if 0 ≤ r2.Start.cmp r2.End then .error "start is not before end"
          else .ok r2

/-- `sort.Search` from the Go standard library, as used by `seek`: binary
search for the smallest index in `[i, j)` at which `f` holds (assuming `f`
is monotone), returning `j` if none. -/
def sortSearchGo (f : Nat → Bool) (i j : Nat) : Nat :=
  if _h : i < j then
    let h := (i + j) / 2
    if ¬ f h then sortSearchGo f (h + 1) j else sortSearchGo f i h
  else i
termination_by j - i
decreasing_by
· omega
· omega

def sortSearch (n : Nat) (f : Nat → Bool) : Nat :=
  sortSearchGo f 0 n

/-- `seek` from `events.go`: the suffix of `events` from the first position
whose cursor is `≥ cursor` (per binary search; `events` must be sorted). -/
def seek (events : List Event) (cursor : Cursor) : List Event :=
  let j := sortSearch events.length
    (fun i => decide (cursor.cmp ((events.getD i default).cursor cursor.ledger) ≤ 0))
  events.drop j

theorem sortSearchGo_spec (f : Nat → Bool) (i j : Nat) (hij : i ≤ j)
    (hmono : ∀ x y, i ≤ x → x ≤ y → y < j → f x = true → f y = true) :
    i ≤ sortSearchGo f i j ∧ sortSearchGo f i j ≤ j ∧
      (∀ x, i ≤ x → x < sortSearchGo f i j → f x = false) ∧
      (∀ x, sortSearchGo f i j ≤ x → x < j → f x = true) := by
  rw [sortSearchGo]
  split
  case isTrue hlt =>
    by_cases hfh : f ((i + j) / 2) = true
    · rw [if_neg (by simp [hfh])]
      have hrec := sortSearchGo_spec f i ((i + j) / 2) (by omega)
        (fun x y hx hxy hy hfx => hmono x y hx hxy (by omega) hfx)
      refine ⟨hrec.1, by omega, hrec.2.2.1, ?_⟩
      intro x hrx hxj
      by_cases hxh : x < (i + j) / 2
      · exact hrec.2.2.2 x hrx hxh
      · exact hmono ((i + j) / 2) x (by omega) (by omega) hxj hfh
    · rw [if_pos (by simp [hfh])]
      have hrec := sortSearchGo_spec f ((i + j) / 2 + 1) j (by omega)
        (fun x y hx hxy hy hfx => hmono x y (by omega) hxy hy hfx)
      refine ⟨by omega, hrec.2.1, ?_, hrec.2.2.2⟩
      intro x hix hxr
      by_cases hxh : (i + j) / 2 + 1 ≤ x
      · exact hrec.2.2.1 x hxh hxr
      · by_cases hfx : f x = true
        · exact absurd (hmono x ((i + j) / 2) hix (by omega) (by omega) hfx)
            (by simp [hfh])
        · simpa using hfx
  case isFalse hge =>
    exact ⟨Nat.le_refl i, hij, fun x hx hx' => by omega, fun x hx hx' => by omega⟩
termination_by j - i
decreasing_by
· omega
· omega

/-- Helper: if the first `r` positions of `l` fail `q` and the rest satisfy
it, then dropping `r` elements is the same as filtering by `q`. -/
theorem drop_eq_filter_of_split {α : Type} [Inhabited α] (l : List α) (q : α → Bool)
    (r : Nat) (hr : r ≤ l.length)
    (hlow : ∀ x, x < r → q (l.getD x default) = false)
    (hhigh : ∀ x, r ≤ x → x < l.length → q (l.getD x default) = true) :
    l.drop r = l.filter q := by
  induction l generalizing r with
  | nil => simp
  | cons a l ih =>
    cases r with
    | zero =>
      have hall : ∀ x ∈ a :: l, q x = true := by
        intro x hx
        obtain ⟨i, hi, rfl⟩ := List.getElem_of_mem hx
        have := hhigh i (Nat.zero_le i) hi
        simpa [List.getD, List.getElem?_eq_getElem hi] using this
      simp [List.filter_eq_self.mpr hall]
    | succ r =>
      have hqa : q a = false := by
        have := hlow 0 (Nat.succ_pos r)
        simpa [List.getD] using this
      rw [List.drop_succ_cons, List.filter_cons, if_neg (by simp [hqa])]
      exact ih r (by simpa using hr)
        (fun x hx => by
          have := hlow (x + 1) (by omega)
          simpa [List.getD] using this)
        (fun x hx hx' => by
          have := hhigh (x + 1) (by omega) (by simpa using hx')
          simpa [List.getD] using this)

/-- `seek` on a sorted event list is the filter keeping the events whose
cursor (at the search cursor's ledger) is `≥ cursor`. -/
theorem seek_eq_filter (events : List Event) (cursor : Cursor)
    (hsorted : List.Pairwise
      (fun e1 e2 => Cursor.lt (e1.cursor cursor.ledger) (e2.cursor cursor.ledger))
      events) :
    seek events cursor =
      events.filter (fun e => decide (cursor.cmp (e.cursor cursor.ledger) ≤ 0)) := by
  unfold seek sortSearch
  have hpair := (List.pairwise_iff_getElem).mp hsorted
  have hmono : ∀ x y, 0 ≤ x → x ≤ y → y < events.length →
      decide (cursor.cmp ((events.getD x default).cursor cursor.ledger) ≤ 0) = true →
      decide (cursor.cmp ((events.getD y default).cursor cursor.ledger) ≤ 0) = true := by
    intro x y _ hxy hy hx
    rcases Nat.eq_or_lt_of_le hxy with rfl | hlt
    · exact hx
    · have hxlen : x < events.length := by omega
      have hgx : events.getD x default = events[x] := by
        simp [List.getD, List.getElem?_eq_getElem hxlen]
      have hgy : events.getD y default = events[y] := by
        simp [List.getD, List.getElem?_eq_getElem hy]
      rw [hgx] at hx
      rw [hgy]
      have hrel := hpair x y hxlen hy hlt
      simp only [decide_eq_true_eq] at hx ⊢
      rw [Cursor.cmp_nonpos_iff] at hx ⊢
      rcases hx with heq | hlt'
      · exact Or.inr (heq ▸ hrel)
      · exact Or.inr (Cursor.lt_trans hlt' hrel)
  have hspec := sortSearchGo_spec
    (fun i => decide (cursor.cmp ((events.getD i default).cursor cursor.ledger) ≤ 0))
    0 events.length (Nat.zero_le _) (fun x y hx hxy hy => hmono x y hx hxy hy)
  exact drop_eq_filter_of_split events _ _ hspec.2.1
    (fun x hx => by simpa using hspec.2.2.1 x (Nat.zero_le x) hx)
    (fun x hx hx' => hspec.2.2.2 x hx hx')

/-- One visitor invocation `f(event, cursor, timestamp)` recorded by `Scan`. -/
structure Visit where
  contents : ContractEvent
  cursor : Cursor
  timestamp : Int
deriving DecidableEq, Repr

/-- The inner loop of `Scan` over one bucket's (already seeked) events.
Returns the visitor invocations made and whether the whole scan returns
early (a cursor reached `End`, or the visitor returned `false`). -/
def scanEvents (f : ContractEvent → Cursor → Int → Bool) (endC : Cursor)
    (ledgerSeq : Nat) (timestamp : Int) : List Event → List Visit × Bool
  | [] => ([], false)
  | e :: rest =>
    let cur := e.cursor ledgerSeq
    if endC.cmp cur ≤ 0 then ([], true)
    else if ¬ f e.contents cur timestamp then ([⟨e.contents, cur, timestamp⟩], true)
    else
      let r := scanEvents f endC ledgerSeq timestamp rest
      (⟨e.contents, cur, timestamp⟩ :: r.1, r.2)

/-- The outer loop of `Scan` (`for i := firstLedgerInRange-firstLedgerInWindow; ...`),
run over the suffix of the bucket list from the starting index.  The bucket
whose sequence equals `firstLedgerInRange` is seeked to the range start. -/
def scanBuckets (f : ContractEvent → Cursor → Int → Bool) (startC endC : Cursor)
    (firstLedgerInRange : Nat) : List (LedgerBucket (List Event)) → List Visit
  | [] => []
  | b :: rest =>
    let events := if b.LedgerSeq = firstLedgerInRange
      then seek b.BucketContent startC else b.BucketContent
    let r := scanEvents f endC b.LedgerSeq b.LedgerCloseTimestamp events
    if r.2 then r.1 else r.1 ++ scanBuckets f startC endC firstLedgerInRange rest

/-- `MemoryStore.Scan` from `events.go`.  In addition to the Go return value
(`latest ledger` or an error), the list of visitor invocations made is
returned so that properties of the visit sequence can be stated. -/
def MemoryStore.Scan (m : MemoryStore) (eventRange : Range)
    (f : ContractEvent → Cursor → Int → Bool) : List Visit × Except String Nat :=
  match m.validateRange eventRange with
  | .error e => ([], .error e)
  | .ok r =>
    let firstLedgerInRange := r.Start.ledger
    let firstLedgerInWindow := (m.eventsByLedger.Get 0).LedgerSeq
    let lastLedgerInWindow := firstLedgerInWindow + (m.eventsByLedger.Len - 1)
    let visits := scanBuckets f r.Start r.End firstLedgerInRange
      (m.eventsByLedger.buckets.drop (firstLedgerInRange - firstLedgerInWindow))
    (visits, .ok lastLedgerInWindow)

/-! ### Specification-side definitions for the scan claims -/

/-- The visit corresponding to a stored event of a bucket at ledger `s`. -/
def eventVisit (s : Nat) (ts : Int) (e : Event) : Visit :=
  ⟨e.contents, e.cursor s, ts⟩

/-- All stored events of a bucket list, with their cursors and timestamps,
in window order. -/
def bucketVisits (bs : List (LedgerBucket (List Event))) : List Visit :=
  bs.flatMap fun b => b.BucketContent.map (eventVisit b.LedgerSeq b.LedgerCloseTimestamp)

/-- `[start, end)` membership of a visit's cursor, as a Bool. -/
def visitInRange (startC endC : Cursor) (v : Visit) : Bool :=
  decide (startC.cmp v.cursor ≤ 0) && decide (v.cursor.cmp endC < 0)

/-- The visitor invocations a scan over `vs` makes: every visit up to and
including the first one at which the visitor returns `false`. -/
def visitTrace (f : ContractEvent → Cursor → Int → Bool) : List Visit → List Visit
  | [] => []
  | v :: vs =>
    if f v.contents v.cursor v.timestamp then v :: visitTrace f vs else [v]

/-- Whether a visit satisfies the visitor. -/
def visitPass (f : ContractEvent → Cursor → Int → Bool) (v : Visit) : Bool :=
  f v.contents v.cursor v.timestamp

theorem Cursor.lt_asymm {a b : Cursor} (h : Cursor.lt a b) : ¬ Cursor.lt b a :=
  fun h' => Cursor.lt_irrefl a (Cursor.lt_trans h h')

theorem Cursor.lt_trichotomy (a b : Cursor) : Cursor.lt a b ∨ a = b ∨ Cursor.lt b a := by
  cases a; cases b
  unfold Cursor.lt
  simp only [Cursor.mk.injEq]
  omega

theorem visitTrace_append (f : ContractEvent → Cursor → Int → Bool)
    (xs ys : List Visit) :
    visitTrace f (xs ++ ys) =
      if xs.all (visitPass f) then xs ++ visitTrace f ys else visitTrace f xs := by
  induction xs with
  | nil => simp
  | cons x xs ih =>
    by_cases hx : f x.contents x.cursor x.timestamp
    · simp only [List.cons_append, visitTrace, hx, if_true, List.all_cons, visitPass,
        Bool.true_and, List.append_eq]
      rw [ih]
      by_cases hall : xs.all (visitPass f)
      · rw [if_pos hall, if_pos hall]
      · rw [if_neg hall, if_neg hall]
    · simp [visitTrace, hx, visitPass]

theorem visitTrace_all_true (f : ContractEvent → Cursor → Int → Bool)
    (xs : List Visit) (h : xs.all (visitPass f) = true) :
    visitTrace f xs = xs := by
  induction xs with
  | nil => rfl
  | cons x xs ih =>
    simp only [List.all_cons, Bool.and_eq_true] at h
    simp only [visitTrace, visitPass] at *
    rw [if_pos h.1]
    rw [ih h.2]

/-- Specification of the inner scan loop on a sorted event list: the visits
are the trace of the visitor over the events with cursor `< endC`, and the
early-return flag is set unless every event was below `endC` and accepted. -/
theorem scanEvents_spec (f : ContractEvent → Cursor → Int → Bool) (endC : Cursor)
    (s : Nat) (ts : Int) (events : List Event)
    (hsorted : List.Pairwise
      (fun e1 e2 => Cursor.lt (e1.cursor s) (e2.cursor s)) events) :
    (scanEvents f endC s ts events).1 =
      visitTrace f ((events.filter
        (fun e => decide ((e.cursor s).cmp endC < 0))).map (eventVisit s ts)) ∧
    (scanEvents f endC s ts events).2 =
      ! events.all (fun e =>
        decide ((e.cursor s).cmp endC < 0) && f e.contents (e.cursor s) ts) := by
  induction events with
  | nil => simp [scanEvents, visitTrace]
  | cons e rest ih =>
    have hpair := List.pairwise_cons.mp hsorted
    have ihr := ih hpair.2
    by_cases h1 : endC.cmp (e.cursor s) ≤ 0
    · -- a cursor reached `End`: scan stops without visiting
      have hfb : decide ((e.cursor s).cmp endC < 0) = false := by
        simp only [decide_eq_false_iff_not, Cursor.cmp_neg_iff]
        rw [Cursor.cmp_nonpos_iff] at h1
        rcases h1 with heq | hlt
        · rw [← heq]
          exact Cursor.lt_irrefl endC
        · exact Cursor.lt_asymm hlt
      have hrest : rest.filter (fun e' => decide ((e'.cursor s).cmp endC < 0)) = [] := by
        rw [List.filter_eq_nil_iff]
        intro e' he'
        simp only [decide_eq_true_eq, Cursor.cmp_neg_iff]
        have hee' := hpair.1 e' he'
        rw [Cursor.cmp_nonpos_iff] at h1
        intro hlt'
        rcases h1 with heq | hlt
        · exact Cursor.lt_irrefl _ (Cursor.lt_trans hee' (heq ▸ hlt'))
        · exact Cursor.lt_irrefl _ (Cursor.lt_trans (Cursor.lt_trans hlt' hlt) hee')
      constructor
      · simp [scanEvents, if_pos h1, hfb, hrest, visitTrace]
      · simp [scanEvents, if_pos h1, hfb]
    · have hfb : decide ((e.cursor s).cmp endC < 0) = true := by
        simp only [decide_eq_true_eq, Cursor.cmp_neg_iff]
        rw [Cursor.cmp_nonpos_iff, not_or] at h1
        rcases Cursor.lt_trichotomy (e.cursor s) endC with h | h | h
        · exact h
        · exact absurd h.symm h1.1
        · exact absurd h h1.2
      by_cases h2 : f e.contents (e.cursor s) ts
      · constructor
        · simp [scanEvents, h1, h2, hfb, visitTrace, eventVisit, ihr.1]
        · simp [scanEvents, h1, h2, hfb, ihr.2]
      · constructor
        · simp [scanEvents, h1, h2, hfb, visitTrace, eventVisit]
        · simp [scanEvents, h1, h2, hfb]
/-- Every visit of a bucket list carries the ledger of one of its buckets. -/
theorem bucketVisits_ledger (bs : List (LedgerBucket (List Event))) (v : Visit)
    (hv : v ∈ bucketVisits bs) : ∃ b ∈ bs, v.cursor.ledger = b.LedgerSeq := by
  unfold bucketVisits at hv
  obtain ⟨b, hb, hv⟩ := List.mem_flatMap.mp hv
  obtain ⟨e, _, rfl⟩ := List.mem_map.mp hv
  exact ⟨b, hb, rfl⟩

/-- Specification of the outer scan loop: on a suffix of buckets with
strictly increasing ledger sequences, all at or after the start ledger and
each internally sorted, the scan produces the visitor trace over the visits
inside `[startC, endC)`, in stored order. -/
theorem scanBuckets_spec (f : ContractEvent → Cursor → Int → Bool)
    (startC endC : Cursor) (bs : List (LedgerBucket (List Event)))
    (hsort : ∀ b ∈ bs, List.Pairwise
      (fun e1 e2 => Cursor.lt (e1.cursor b.LedgerSeq) (e2.cursor b.LedgerSeq))
      b.BucketContent)
    (hinc : List.Pairwise (fun a b => a.LedgerSeq < b.LedgerSeq) bs)
    (hlb : ∀ b ∈ bs, startC.ledger ≤ b.LedgerSeq) :
    scanBuckets f startC endC startC.ledger bs =
      visitTrace f ((bucketVisits bs).filter (visitInRange startC endC)) := by
  induction bs with
  | nil => simp [scanBuckets, bucketVisits, visitTrace]
  | cons b rest ih =>
    have hs_b := hsort b (List.mem_cons_self b rest)
    have hs_rest : ∀ b' ∈ rest, List.Pairwise
        (fun e1 e2 => Cursor.lt (e1.cursor b'.LedgerSeq) (e2.cursor b'.LedgerSeq))
        b'.BucketContent := fun b' hb' => hsort b' (List.mem_cons_of_mem b hb')
    have hinc' := List.pairwise_cons.mp hinc
    have hlb_b := hlb b (List.mem_cons_self b rest)
    -- the filtered head-bucket events coincide with the in-range visits
    have hfe : (if b.LedgerSeq = startC.ledger then seek b.BucketContent startC
        else b.BucketContent).filter
          (fun e => decide ((e.cursor b.LedgerSeq).cmp endC < 0)) =
        b.BucketContent.filter (fun e =>
          visitInRange startC endC (eventVisit b.LedgerSeq b.LedgerCloseTimestamp e)) := by
      by_cases hcase : b.LedgerSeq = startC.ledger
      · rw [if_pos hcase, seek_eq_filter _ _ (by rw [← hcase]; exact hs_b),
          List.filter_filter]
        apply List.filter_congr
        intro e _
        simp [visitInRange, eventVisit, hcase, Bool.and_comm]
      · rw [if_neg hcase]
        apply List.filter_congr
        intro e _
        have hstart : startC.cmp (e.cursor b.LedgerSeq) ≤ 0 := by
          rw [Cursor.cmp_nonpos_iff]
          exact Or.inr (Or.inl (by
            show startC.ledger < b.LedgerSeq
            omega))
        simp [visitInRange, eventVisit, hstart]
    have hsorted' : List.Pairwise
        (fun e1 e2 => Cursor.lt (e1.cursor b.LedgerSeq) (e2.cursor b.LedgerSeq))
        (if b.LedgerSeq = startC.ledger then seek b.BucketContent startC
          else b.BucketContent) := by
      by_cases hcase : b.LedgerSeq = startC.ledger
      · rw [if_pos hcase, seek_eq_filter _ _ (by rw [← hcase]; exact hs_b)]
        exact hs_b.filter _
      · rw [if_neg hcase]
        exact hs_b
    have hscan := scanEvents_spec f endC b.LedgerSeq b.LedgerCloseTimestamp _ hsorted'
    have hX : (b.BucketContent.map (eventVisit b.LedgerSeq b.LedgerCloseTimestamp)).filter
        (visitInRange startC endC) =
        ((if b.LedgerSeq = startC.ledger then seek b.BucketContent startC
          else b.BucketContent).filter
          (fun e => decide ((e.cursor b.LedgerSeq).cmp endC < 0))).map
          (eventVisit b.LedgerSeq b.LedgerCloseTimestamp) := by
      rw [List.filter_map, hfe]
      rfl
    have hsplit : bucketVisits (b :: rest) =
        b.BucketContent.map (eventVisit b.LedgerSeq b.LedgerCloseTimestamp) ++
          bucketVisits rest := by
      simp [bucketVisits]
    simp only [scanBuckets]
    rw [hsplit, List.filter_append, visitTrace_append]
    by_cases hstop : (scanEvents f endC b.LedgerSeq b.LedgerCloseTimestamp
        (if b.LedgerSeq = startC.ledger then seek b.BucketContent startC
          else b.BucketContent)).2
    · rw [if_pos hstop, hscan.1, ← hX]
      by_cases hXall : ((b.BucketContent.map
          (eventVisit b.LedgerSeq b.LedgerCloseTimestamp)).filter
          (visitInRange startC endC)).all (visitPass f)
      · -- the visitor accepted everything visited, so the stop was a cursor
        -- reaching `End`; all later buckets are beyond `End` as well
        have hallfalse : ¬ ((if b.LedgerSeq = startC.ledger
            then seek b.BucketContent startC else b.BucketContent).all
            (fun e => decide ((e.cursor b.LedgerSeq).cmp endC < 0) &&
              f e.contents (e.cursor b.LedgerSeq) b.LedgerCloseTimestamp)) = true := by
          intro hcontra
          rw [hscan.2, hcontra] at hstop
          simp at hstop
        obtain ⟨e', he', hq⟩ : ∃ e' ∈ (if b.LedgerSeq = startC.ledger
            then seek b.BucketContent startC else b.BucketContent),
            ¬ (decide ((e'.cursor b.LedgerSeq).cmp endC < 0) &&
              f e'.contents (e'.cursor b.LedgerSeq) b.LedgerCloseTimestamp) = true := by
          by_contra hcon
          push_neg at hcon
          exact hallfalse (List.all_eq_true.mpr hcon)
        by_cases hbend : decide ((e'.cursor b.LedgerSeq).cmp endC < 0) = true
        · -- then the visitor rejected e', contradicting hXall
          exfalso
          have hv' : eventVisit b.LedgerSeq b.LedgerCloseTimestamp e' ∈
              (b.BucketContent.map (eventVisit b.LedgerSeq b.LedgerCloseTimestamp)).filter
                (visitInRange startC endC) := by
            rw [hX]
            exact List.mem_map_of_mem _ (List.mem_filter.mpr ⟨he', hbend⟩)
          have hpass := List.all_eq_true.mp hXall _ hv'
          simp only [visitPass, eventVisit] at hpass
          rw [hbend, hpass] at hq
          simp at hq
        · -- e' reached `End`; every later-bucket visit is beyond `End` too
          have hYnil : (bucketVisits rest).filter (visitInRange startC endC) = [] := by
            rw [List.filter_eq_nil_iff]
            intro v hv
            obtain ⟨b', hb', hvb'⟩ := bucketVisits_ledger rest v hv
            have hblt : b.LedgerSeq < b'.LedgerSeq := hinc'.1 b' hb'
            have hcurlt : Cursor.lt (e'.cursor b.LedgerSeq) v.cursor :=
              Or.inl (by
                show (e'.cursor b.LedgerSeq).ledger < v.cursor.ledger
                rw [hvb']
                exact hblt)
            have hnotlt : ¬ Cursor.lt (e'.cursor b.LedgerSeq) endC := by
              intro hl
              exact hbend (by simp [Cursor.cmp_neg_iff, hl])
            simp only [visitInRange, Bool.and_eq_true, not_and, decide_eq_true_eq]
            intro _
            rw [Cursor.cmp_neg_iff]
            intro hvend
            rcases Cursor.lt_trichotomy (e'.cursor b.LedgerSeq) endC with h | h | h
            · exact hnotlt h
            · exact Cursor.lt_irrefl endC (Cursor.lt_trans (h ▸ hcurlt) hvend)
            · exact Cursor.lt_irrefl endC
                (Cursor.lt_trans (Cursor.lt_trans h hcurlt) hvend)
          rw [if_pos hXall, hYnil]
          simp [visitTrace, visitTrace_all_true f _ hXall]
      · rw [if_neg hXall]
    · -- no early return: the whole bucket was visited and accepted
      rw [if_neg hstop]
      have hall : ((if b.LedgerSeq = startC.ledger then seek b.BucketContent startC
          else b.BucketContent).all
          (fun e => decide ((e.cursor b.LedgerSeq).cmp endC < 0) &&
            f e.contents (e.cursor b.LedgerSeq) b.LedgerCloseTimestamp)) = true := by
        by_contra hfalse
        rw [Bool.not_eq_true] at hfalse
        exact hstop (by rw [hscan.2, hfalse]; rfl)
      have hfself : (if b.LedgerSeq = startC.ledger then seek b.BucketContent startC
          else b.BucketContent).filter
            (fun e => decide ((e.cursor b.LedgerSeq).cmp endC < 0)) =
          (if b.LedgerSeq = startC.ledger then seek b.BucketContent startC
            else b.BucketContent) := by
        rw [List.filter_eq_self]
        intro e he
        have := List.all_eq_true.mp hall e he
        exact Bool.and_elim_left this
      have hXall : ((b.BucketContent.map
          (eventVisit b.LedgerSeq b.LedgerCloseTimestamp)).filter
          (visitInRange startC endC)).all (visitPass f) = true := by
        rw [hX, hfself]
        rw [List.all_eq_true]
        intro v hv
        obtain ⟨e, he, rfl⟩ := List.mem_map.mp hv
        have := List.all_eq_true.mp hall e he
        simp only [visitPass, eventVisit]
        exact Bool.and_elim_right this
      rw [if_pos hXall, hscan.1, ← hX, visitTrace_all_true f _ hXall]
      rw [ih hs_rest hinc'.2
        (fun b' hb' => Nat.le_of_lt (Nat.lt_of_le_of_lt hlb_b (hinc'.1 b' hb')))]


theorem Cursor.cmp_nonneg_iff (a b : Cursor) : 0 ≤ a.cmp b ↔ ¬ Cursor.lt a b := by
  rw [← Cursor.cmp_neg_iff]
  omega

/-- The validation rules exactly as the claim states them, written from the
specification text: clamp or reject a start before the oldest ledger, reject
a start at or beyond ledger `latest+1`, clamp or reject an end beyond the
cursor at ledger `latest+1`, reject an empty range. -/
def claimValidate (len earliest : Nat) (r : Range) : Except String Range :=
  if len = 0 then .error "event store is empty"
  else
    let oldest : Cursor := ⟨earliest, 0, 0, 0⟩
    let afterNewest : Cursor := ⟨earliest + len, 0, 0, 0⟩
    if Cursor.lt r.Start oldest ∧ ¬ r.ClampStart then .error "start is before oldest ledger"
    else
      let start1 := if Cursor.lt r.Start oldest then oldest else r.Start
      if ¬ Cursor.lt start1 afterNewest then .error "start is after newest ledger"
      else if Cursor.lt afterNewest r.End ∧ ¬ r.ClampEnd then .error "end is after latest ledger"
      else
        let end1 := if Cursor.lt afterNewest r.End then afterNewest else r.End
        if ¬ Cursor.lt start1 end1 then .error "start is not before end"
        else .ok
          { r with
            Start := start1
            End := end1 }

/-- Tail of the validation cascade, shared by all start-clamping branches. -/
theorem validateRangeTail_eq (maxC : Cursor) (r : Range) (start1 : Cursor) :
    (if ¬ Cursor.lt start1 maxC then (.error "start is after newest ledger" : Except String Range)
      else
        match
          (if Cursor.lt maxC r.End then
            (if r.ClampEnd then .ok { r with Start := start1, End := maxC }
              else .error "end is after latest ledger")
          else .ok { r with Start := start1 } : Except String Range) with
        | .error e => .error e
        | .ok r2 =>
          if ¬ Cursor.lt r2.Start r2.End then .error "start is not before end"
          else .ok r2) =
      (if ¬ Cursor.lt start1 maxC then .error "start is after newest ledger"
        else if Cursor.lt maxC r.End ∧ ¬ r.ClampEnd then .error "end is after latest ledger"
        else if ¬ Cursor.lt start1 (if Cursor.lt maxC r.End then maxC else r.End) then
          .error "start is not before end"
        else .ok
          { r with
            Start := start1
            End := (if Cursor.lt maxC r.End then maxC else r.End) }) := by
  by_cases hA : Cursor.lt start1 maxC
  · by_cases hB : Cursor.lt maxC r.End
    · by_cases hC : r.ClampEnd
      · simp [hA, hB, hC]
      · simp [hA, hB, hC]
    · simp [hA, hB]
  · simp [hA]

/-- `validateRange` implements exactly the claimed validation cascade. -/
theorem validateRange_eq_claimValidate (m : MemoryStore) (r : Range) :
    m.validateRange r =
      claimValidate m.eventsByLedger.Len (m.eventsByLedger.Get 0).LedgerSeq r := by
  unfold MemoryStore.validateRange claimValidate
  dsimp only
  by_cases h0 : m.eventsByLedger.Len = 0
  · rw [if_pos h0, if_pos h0]
  rw [if_neg h0, if_neg h0]
  by_cases hso : Cursor.lt r.Start ⟨(m.eventsByLedger.Get 0).LedgerSeq, 0, 0, 0⟩
  · by_cases hcs : r.ClampStart
    · rw [if_pos (Cursor.cmp_neg_iff _ _|>.mpr hso), if_pos hcs,
        if_neg (by simp [hso, hcs]), if_pos hso]
      simp only [Cursor.cmp_nonneg_iff, Cursor.cmp_pos_iff, Cursor.cmp_neg_iff]
      exact validateRangeTail_eq _ r _
    · rw [if_pos (Cursor.cmp_neg_iff _ _|>.mpr hso), if_neg hcs,
        if_pos (by simp [hso, hcs])]
  · rw [if_neg (by rw [Cursor.cmp_neg_iff]; exact hso), if_neg (by simp [hso]),
      if_neg hso]
    simp only [Cursor.cmp_nonneg_iff, Cursor.cmp_pos_iff, Cursor.cmp_neg_iff]
    exact validateRangeTail_eq _ r _

/-- What a successful validation guarantees about the clamped range. -/
theorem claimValidate_ok_facts (len earliest : Nat) (r r' : Range)
    (h : claimValidate len earliest r = .ok r') :
    len ≠ 0 ∧ earliest ≤ r'.Start.ledger ∧ r'.Start.ledger < earliest + len := by
  unfold claimValidate at h
  dsimp only at h
  by_cases h0 : len = 0
  · rw [if_pos h0] at h
    exact absurd h (by simp)
  rw [if_neg h0] at h
  refine ⟨h0, ?_⟩
  by_cases h1 : Cursor.lt r.Start ⟨earliest, 0, 0, 0⟩ ∧ ¬ r.ClampStart
  · rw [if_pos h1] at h
    exact absurd h (by simp)
  rw [if_neg h1] at h
  by_cases h2 : ¬ Cursor.lt (if Cursor.lt r.Start ⟨earliest, 0, 0, 0⟩
      then (⟨earliest, 0, 0, 0⟩ : Cursor) else r.Start) ⟨earliest + len, 0, 0, 0⟩
  · rw [if_pos h2] at h
    exact absurd h (by simp)
  rw [if_neg h2] at h
  by_cases h3 : Cursor.lt ⟨earliest + len, 0, 0, 0⟩ r.End ∧ ¬ r.ClampEnd
  · rw [if_pos h3] at h
    exact absurd h (by simp)
  rw [if_neg h3] at h
  by_cases h4 : ¬ Cursor.lt (if Cursor.lt r.Start ⟨earliest, 0, 0, 0⟩
        then (⟨earliest, 0, 0, 0⟩ : Cursor) else r.Start)
      (if Cursor.lt ⟨earliest + len, 0, 0, 0⟩ r.End
        then (⟨earliest + len, 0, 0, 0⟩ : Cursor) else r.End)
  · rw [if_pos h4] at h
    exact absurd h (by simp)
  rw [if_neg h4] at h
  have hr' : r'.Start = (if Cursor.lt r.Start ⟨earliest, 0, 0, 0⟩
      then (⟨earliest, 0, 0, 0⟩ : Cursor) else r.Start) := by
    cases h
    rfl
  rw [not_not] at h2
  rw [hr']
  by_cases h5 : Cursor.lt r.Start ⟨earliest, 0, 0, 0⟩
  · rw [if_pos h5]
    rw [if_pos h5] at h2
    unfold Cursor.lt at h2
    dsimp only at h2 ⊢
    omega
  · rw [if_neg h5]
    rw [if_neg h5] at h2
    unfold Cursor.lt at h2 h5
    dsimp only at h2 h5 ⊢
    omega

/-- Window invariant: ledger sequences of consecutive buckets are contiguous. -/
def contiguousBuckets (bs : List (LedgerBucket (List Event))) : Prop :=
  List.Chain' (fun a b => b.LedgerSeq = a.LedgerSeq + 1) bs

/-- Window invariant: each bucket's events are strictly ascending by
`(tx_index, op_index, event_index)`. -/
def bucketsSorted (bs : List (LedgerBucket (List Event))) : Prop :=
  ∀ b ∈ bs, List.Pairwise
    (fun e1 e2 => Cursor.lt (e1.cursor b.LedgerSeq) (e2.cursor b.LedgerSeq))
    b.BucketContent

theorem getD_eq_getElem' {α : Type} (l : List α) (d : α) (i : Nat)
    (h : i < l.length) : l.getD i d = l[i] := by
  simp [List.getD, List.getElem?_eq_getElem h]

/-- Under contiguity, bucket `i` holds ledger sequence `first + i`. -/
theorem contiguous_getD (d : LedgerBucket (List Event)) :
    ∀ (bs : List (LedgerBucket (List Event))), contiguousBuckets bs →
      ∀ i, i < bs.length →
        (bs.getD i d).LedgerSeq = (bs.getD 0 d).LedgerSeq + i := by
  intro bs
  induction bs with
  | nil =>
    intro _ i hi
    simp at hi
  | cons b bs' ih =>
    intro hc i hi
    cases i with
    | zero => simp
    | succ n =>
      cases bs' with
      | nil => simp at hi
      | cons b' rest =>
        have hc2 := List.chain'_cons.mp hc
        have hrec := ih hc2.2 n (by simpa using hi)
        simp only [List.getD_cons_succ, List.getD_cons_zero] at *
        omega

/-- Contiguous windows have strictly increasing bucket sequences. -/
theorem contiguous_pairwise (bs : List (LedgerBucket (List Event)))
    (hc : contiguousBuckets bs) :
    List.Pairwise (fun a b => a.LedgerSeq < b.LedgerSeq) bs := by
  rw [List.pairwise_iff_getElem]
  intro i j hi hj hij
  have h1 := contiguous_getD ⟨0, 0, []⟩ bs hc i hi
  have h2 := contiguous_getD ⟨0, 0, []⟩ bs hc j hj
  rw [getD_eq_getElem' _ _ _ hi] at h1
  rw [getD_eq_getElem' _ _ _ hj] at h2
  omega

/-- Global strict cursor order of the stored visits of a valid window. -/
theorem bucketVisits_pairwise (bs : List (LedgerBucket (List Event)))
    (hcont : contiguousBuckets bs) (hsort : bucketsSorted bs) :
    List.Pairwise (fun v1 v2 => Cursor.lt v1.cursor v2.cursor) (bucketVisits bs) := by
  unfold bucketVisits
  rw [List.pairwise_flatMap]
  constructor
  · intro b hb
    rw [List.pairwise_map]
    exact hsort b hb
  · refine (contiguous_pairwise bs hcont).imp ?_
    intro a b hab x hx y hy
    obtain ⟨e, _, rfl⟩ := List.mem_map.mp hx
    obtain ⟨e', _, rfl⟩ := List.mem_map.mp hy
    exact Or.inl hab

theorem bucketVisits_append (l1 l2 : List (LedgerBucket (List Event))) :
    bucketVisits (l1 ++ l2) = bucketVisits l1 ++ bucketVisits l2 := by
  unfold bucketVisits
  rw [List.flatMap_append]

/-- `Scan` on a store satisfying the window invariants, at a range accepted
by validation, visits exactly the stored events in `[Start, End)` of the
clamped range, as the visitor trace (stopping at the first rejection), and
returns `earliest + len - 1`; the visited cursor sequence is strictly
ascending. -/
theorem scan_matches_spec (m : MemoryStore) (r r' : Range)
    (f : ContractEvent → Cursor → Int → Bool)
    (hcont : contiguousBuckets m.eventsByLedger.buckets)
    (hsort : bucketsSorted m.eventsByLedger.buckets)
    (hvalid : m.validateRange r = .ok r') :
    m.Scan r f =
      (visitTrace f ((bucketVisits m.eventsByLedger.buckets).filter
          (visitInRange r'.Start r'.End)),
        .ok ((m.eventsByLedger.Get 0).LedgerSeq + (m.eventsByLedger.Len - 1))) ∧
    List.Pairwise (fun v1 v2 => Cursor.lt v1.cursor v2.cursor)
      ((bucketVisits m.eventsByLedger.buckets).filter
        (visitInRange r'.Start r'.End)) := by
  obtain ⟨hlen0, hsle, hslt⟩ := claimValidate_ok_facts m.eventsByLedger.Len
    (m.eventsByLedger.Get 0).LedgerSeq r r'
    (by rw [← validateRange_eq_claimValidate]; exact hvalid)
  have hlenpos : 0 < m.eventsByLedger.buckets.length := by
    have : m.eventsByLedger.Len = m.eventsByLedger.buckets.length := rfl
    omega
  have hs0 : (m.eventsByLedger.Get 0).LedgerSeq =
      (m.eventsByLedger.buckets[0]).LedgerSeq := by
    show (m.eventsByLedger.buckets.getD 0 _).LedgerSeq = _
    rw [getD_eq_getElem' _ _ _ hlenpos]
  have hlen : m.eventsByLedger.Len = m.eventsByLedger.buckets.length := rfl
  have hk : r'.Start.ledger - (m.eventsByLedger.Get 0).LedgerSeq <
      m.eventsByLedger.buckets.length := by omega
  have hseqAt : ∀ i, ∀ hi : i < m.eventsByLedger.buckets.length,
      (m.eventsByLedger.buckets[i]).LedgerSeq =
        (m.eventsByLedger.Get 0).LedgerSeq + i := by
    intro i hi
    have := contiguous_getD ⟨0, 0, []⟩ m.eventsByLedger.buckets hcont i hi
    rw [getD_eq_getElem' _ _ _ hi, getD_eq_getElem' _ _ _ hlenpos] at this
    omega
  have hsort' : ∀ b ∈ m.eventsByLedger.buckets.drop
      (r'.Start.ledger - (m.eventsByLedger.Get 0).LedgerSeq), List.Pairwise
      (fun e1 e2 => Cursor.lt (e1.cursor b.LedgerSeq) (e2.cursor b.LedgerSeq))
      b.BucketContent :=
    fun b hb => hsort b (List.mem_of_mem_drop hb)
  have hinc' : List.Pairwise (fun a b => a.LedgerSeq < b.LedgerSeq)
      (m.eventsByLedger.buckets.drop
        (r'.Start.ledger - (m.eventsByLedger.Get 0).LedgerSeq)) :=
    List.Pairwise.drop (contiguous_pairwise _ hcont)
  have hlb : ∀ b ∈ m.eventsByLedger.buckets.drop
      (r'.Start.ledger - (m.eventsByLedger.Get 0).LedgerSeq),
      r'.Start.ledger ≤ b.LedgerSeq := by
    intro b hb
    obtain ⟨i, hi, hbi⟩ := List.mem_iff_getElem.mp hb
    rw [List.length_drop] at hi
    have hki : (r'.Start.ledger - (m.eventsByLedger.Get 0).LedgerSeq) + i <
        m.eventsByLedger.buckets.length := by omega
    rw [List.getElem_drop] at hbi
    have := hseqAt _ hki
    rw [hbi] at this
    omega
  have hscanb := scanBuckets_spec f r'.Start r'.End
    (m.eventsByLedger.buckets.drop
      (r'.Start.ledger - (m.eventsByLedger.Get 0).LedgerSeq))
    hsort' hinc' hlb
  have htake : (bucketVisits (m.eventsByLedger.buckets.take
      (r'.Start.ledger - (m.eventsByLedger.Get 0).LedgerSeq))).filter
      (visitInRange r'.Start r'.End) = [] := by
    rw [List.filter_eq_nil_iff]
    intro v hv
    obtain ⟨b, hb, hvb⟩ := bucketVisits_ledger _ v hv
    obtain ⟨i, hi, hbi⟩ := List.mem_iff_getElem.mp hb
    rw [List.length_take] at hi
    have hitk : i < r'.Start.ledger - (m.eventsByLedger.Get 0).LedgerSeq := by omega
    have hib : i < m.eventsByLedger.buckets.length := by omega
    rw [List.getElem_take] at hbi
    have hsq := hseqAt i hib
    rw [hbi] at hsq
    have hcl : v.cursor.ledger < r'.Start.ledger := by omega
    have hA : decide (r'.Start.cmp v.cursor ≤ 0) = false := by
      simp only [decide_eq_false_iff_not, Cursor.cmp_nonpos_iff]
      rintro (heq | hlt)
      · rw [heq] at hcl
        omega
      · unfold Cursor.lt at hlt
        omega
    simp [visitInRange, hA]
  have hsplitall : (bucketVisits m.eventsByLedger.buckets).filter
      (visitInRange r'.Start r'.End) =
      (bucketVisits (m.eventsByLedger.buckets.drop
        (r'.Start.ledger - (m.eventsByLedger.Get 0).LedgerSeq))).filter
        (visitInRange r'.Start r'.End) := by
    conv_lhs => rw [← List.take_append_drop
      (r'.Start.ledger - (m.eventsByLedger.Get 0).LedgerSeq)
      m.eventsByLedger.buckets]
    rw [bucketVisits_append, List.filter_append, htake, List.nil_append]
  constructor
  · unfold MemoryStore.Scan
    rw [hvalid]
    refine Prod.ext ?_ rfl
    show scanBuckets f r'.Start r'.End r'.Start.ledger _ = _
    rw [hscanb, hsplitall]
  · exact (bucketVisits_pairwise _ hcont hsort).filter _

/-! ### Entry store (`ledgerentry_storage/db.go`) -/

/-- Contents of the SQLite database visible in one snapshot: the
`ledger_entries` table (encoded key to encoded entry) and the `metadata`
row `LatestLedgerSequence`. -/
structure DBState where
  entries : String → Option String
  latestSeq : Option Nat

/-- `getLatestLedgerSequence`: single metadata-row read; a missing row is
`ErrEmptyDB` ("DB is empty"). -/
def getLatestLedgerSequence (db : DBState) : Except String Nat :=
  match db.latestSeq with
  | none => .error "DB is empty"
  | some n => .ok n

/-- `upsertLatestLedgerSequence`, applied to a transaction's pending view. -/
def upsertLatestLedgerSequence (db : DBState) (sequence : Nat) : DBState :=
  { db with latestSeq := some sequence }

/-- `ledgerUpdaterTx`: one open write transaction.  Keys and entries are
represented post-encoding (`encodeLedgerKey` and `UnsafeMarshalBinary` are
deterministic XDR encodings living outside the sources); the Go map
`keyToEntryBatch` is an association list with pairwise-distinct keys, a
`none` value meaning deletion. -/
structure LedgerUpdaterTx where
  committedDB : DBState
  txPending : DBState
  txOpen : Bool
  forLedgerSequence : Nat
  maxBatchSize : Nat
  keyToEntryBatch : List (String × Option String)

/-- `NewLedgerEntryUpdaterTx`: open a write transaction. -/
def NewLedgerEntryUpdaterTx (db : DBState) (forLedgerSequence maxBatchSize : Nat) :
    LedgerUpdaterTx :=
  { committedDB := db, txPending := db, txOpen := true,
    forLedgerSequence := forLedgerSequence, maxBatchSize := maxBatchSize,
    keyToEntryBatch := [] }

/-- Go map insertion: replace the binding when the key is present. -/
def mapInsert (k : String) (v : Option String) :
    List (String × Option String) → List (String × Option String)
  | [] => [(k, v)]
  | (k', v') :: rest =>
    if k' = k then (k, v) :: rest else (k', v') :: mapInsert k v rest

/-- Go map lookup. -/
def mapLookup (k : String) : List (String × Option String) → Option (Option String)
  | [] => none
  | (k', v') :: rest => if k' = k then some v' else mapLookup k rest

/-- The single multi-row `REPLACE` statement of a flush: apply every
buffered upsert to the entries table. -/
def applyUpserts (batch : List (String × Option String))
    (m : String → Option String) : String → Option String :=
  batch.foldl (fun acc kv =>
    match kv.2 with
    | some v => fun q => if q = kv.1 then some v else acc q
    | none => acc) m

/-- The single multi-row `DELETE` statement of a flush: apply every
buffered deletion to the entries table. -/
def applyDeletes (batch : List (String × Option String))
    (m : String → Option String) : String → Option String :=
  batch.foldl (fun acc kv =>
    match kv.2 with
    | none => fun q => if q = kv.1 then none else acc q
    | some _ => acc) m

/-- `flushLedgerEntryBatch`: one multi-row upsert exec (when the batch holds
upserts), then one multi-row delete exec (when it holds deletions).
`upsertOk`/`deleteOk` inject the outcomes of the two SQL execs.  The buffer
is not cleared here; callers reset it. -/
def flushLedgerEntryBatch (upsertOk deleteOk : Bool) (l : LedgerUpdaterTx) :
    Bool × LedgerUpdaterTx :=
  let hasUpserts := l.keyToEntryBatch.any (fun kv => kv.2.isSome)
  let hasDeletes := l.keyToEntryBatch.any (fun kv => kv.2.isNone)
  if hasUpserts && !upsertOk then (true, l)
  else
    let l1 := { l with txPending :=
      { l.txPending with entries := applyUpserts l.keyToEntryBatch l.txPending.entries } }
    if hasDeletes && !deleteOk then (true, l1)
    else (false, { l1 with txPending :=
      { l1.txPending with entries := applyDeletes l.keyToEntryBatch l1.txPending.entries } })

/-- Rollback of the write transaction: pending changes are discarded and the
transaction is closed; readers keep seeing `committedDB`. -/
def rollbackTx (l : LedgerUpdaterTx) : LedgerUpdaterTx :=
  { l with txPending := l.committedDB, txOpen := false }

/-- `upsertLedgerEntry` (the lower-case, no-rollback helper): buffer the
encoded pair, flushing and resetting the buffer when its size has reached
`maxBatchSize` (`>=`).  `enc` is the outcome of encoding key and entry. -/
def upsertLedgerEntry (enc : Option (String × String)) (upsertOk deleteOk : Bool)
    (l : LedgerUpdaterTx) : Bool × LedgerUpdaterTx :=
  match enc with
  | none => (true, l)
  | some (encodedKey, encodedEntryStr) =>
    let l1 :=
      { l with keyToEntryBatch := mapInsert encodedKey (some encodedEntryStr) l.keyToEntryBatch }
    if l1.maxBatchSize ≤ l1.keyToEntryBatch.length then
      match flushLedgerEntryBatch upsertOk deleteOk l1 with
      | (true, l2) => (true, l2)
      | (false, l2) => (false, { l2 with keyToEntryBatch := [] })
    else (false, l1)

/-- `UpsertLedgerEntry`: rolls the transaction back on any error. -/
def UpsertLedgerEntry (enc : Option (String × String)) (upsertOk deleteOk : Bool)
    (l : LedgerUpdaterTx) : Bool × LedgerUpdaterTx :=
  match upsertLedgerEntry enc upsertOk deleteOk l with
  | (true, l') => (true, rollbackTx l')
  | (false, l') => (false, l')

/-- `deleteLedgerEntry` (the lower-case helper): buffer the deletion,
flushing only when the buffer size strictly exceeds `maxBatchSize` (`>`,
unlike the `>=` of the upsert path). -/
def deleteLedgerEntry (enc : Option String) (upsertOk deleteOk : Bool)
    (l : LedgerUpdaterTx) : Bool × LedgerUpdaterTx :=
  match enc with
  | none => (true, l)
  | some encodedKey =>
    let l1 := { l with keyToEntryBatch := mapInsert encodedKey none l.keyToEntryBatch }
    if l1.maxBatchSize < l1.keyToEntryBatch.length then
      match flushLedgerEntryBatch upsertOk deleteOk l1 with
      | (true, l2) => (true, l2)
      | (false, l2) => (false, { l2 with keyToEntryBatch := [] })
    else (false, l1)

/-- `DeleteLedgerEntry`: rolls the transaction back on any error. -/
def DeleteLedgerEntry (enc : Option String) (upsertOk deleteOk : Bool)
    (l : LedgerUpdaterTx) : Bool × LedgerUpdaterTx :=
  match deleteLedgerEntry enc upsertOk deleteOk l with
  | (true, l') => (true, rollbackTx l')
  | (false, l') => (false, l')

/-- Observable actions of `Done`, in execution order. -/
inductive DoneAction
  | flushBatch
  | setLatest (n : Nat)
  | commitTx
  | walCheckpoint
deriving DecidableEq, Repr

/-- `done()` (the lower-case helper): flush the remaining batch, then update
the `LatestLedgerSequence` metadata row (`setLatestOk` injects the outcome
of that SQL exec). -/
def doneInner (upsertOk deleteOk setLatestOk : Bool) (l : LedgerUpdaterTx) :
    Bool × LedgerUpdaterTx × List DoneAction :=
  match flushLedgerEntryBatch upsertOk deleteOk l with
  | (true, l') => (true, l', [])
  | (false, l1) =>
    if !setLatestOk then (true, l1, [.flushBatch])
    else
      (false,
        { l1 with txPending := upsertLatestLedgerSequence l1.txPending l1.forLedgerSequence },
        [.flushBatch, .setLatest l1.forLedgerSequence])

/-- `Done`: run `done()`, rolling back on its failure; then commit the
transaction; then run the `wal_checkpoint(TRUNCATE)` post-commit hook.  A
hook failure is returned but does not un-commit. -/
def Done (upsertOk deleteOk setLatestOk commitOk hookOk : Bool) (l : LedgerUpdaterTx) :
    Bool × LedgerUpdaterTx × List DoneAction :=
  match doneInner upsertOk deleteOk setLatestOk l with
  | (true, l', tr) => (true, rollbackTx l', tr)
  | (false, l1, tr) =>
    if !commitOk then (true, { l1 with txOpen := false }, tr)
    else
      let l2 := { l1 with committedDB := l1.txPending, txOpen := false }
      if !hookOk then (true, l2, tr ++ [.commitTx])
      else (false, l2, tr ++ [.commitTx, .walCheckpoint])

/-! ### Entry-store lemmas -/

/-- Buffered operations carry pairwise-distinct keys (the Go map invariant). -/
def batchKeysNodup (b : List (String × Option String)) : Prop :=
  (b.map Prod.fst).Nodup

/-- The value a commit would expose for key `k`: the buffered operation if
present, else the pending table row. -/
def mergeView (l : LedgerUpdaterTx) (k : String) : Option String :=
  match mapLookup k l.keyToEntryBatch with
  | some v => v
  | none => l.txPending.entries k

/-- Last-operation-wins merge of a buffered batch over a table. -/
def batchApply (b : List (String × Option String))
    (m : String → Option String) : String → Option String :=
  fun q =>
    match mapLookup q b with
    | some v => v
    | none => m q

theorem mapLookup_cons (k k0 : String) (v0 : Option String)
    (rest : List (String × Option String)) :
    mapLookup k ((k0, v0) :: rest) = if k0 = k then some v0 else mapLookup k rest := rfl

theorem mapLookup_mapInsert (k k' : String) (v : Option String)
    (b : List (String × Option String)) :
    mapLookup k' (mapInsert k v b) = if k = k' then some v else mapLookup k' b := by
  induction b with
  | nil =>
    by_cases h : k = k' <;> simp [mapInsert, mapLookup, h]
  | cons kv rest ih =>
    obtain ⟨k0, v0⟩ := kv
    by_cases h0 : k0 = k
    · subst h0
      by_cases h : k0 = k' <;> simp [mapInsert, mapLookup, h]
    · by_cases h : k0 = k'
      · subst h
        have hne : ¬ k = k0 := fun hc => h0 hc.symm
        simp [mapInsert, mapLookup, h0, hne]
      · simp [mapInsert, mapLookup, h0, h, ih]

theorem mapLookup_isSome_iff (k : String) (b : List (String × Option String)) :
    (mapLookup k b).isSome ↔ k ∈ b.map Prod.fst := by
  induction b with
  | nil => simp [mapLookup]
  | cons kv rest ih =>
    obtain ⟨k0, v0⟩ := kv
    by_cases h : k0 = k
    · subst h
      simp [mapLookup]
    · simp only [mapLookup_cons, if_neg h, List.map_cons, List.mem_cons]
      rw [ih]
      constructor
      · exact Or.inr
      · rintro (hc | hc)
        · exact absurd hc.symm h
        · exact hc

theorem keys_mapInsert (k : String) (v : Option String)
    (b : List (String × Option String)) :
    (mapInsert k v b).map Prod.fst =
      if (mapLookup k b).isSome then b.map Prod.fst else b.map Prod.fst ++ [k] := by
  induction b with
  | nil => simp [mapInsert, mapLookup]
  | cons kv rest ih =>
    obtain ⟨k0, v0⟩ := kv
    by_cases h0 : k0 = k
    · subst h0
      simp [mapInsert, mapLookup]
    · simp only [mapInsert, if_neg h0, List.map_cons, mapLookup_cons, ih]
      by_cases hl : (mapLookup k rest).isSome <;> simp [hl, h0]

theorem mapInsert_nodup (k : String) (v : Option String)
    (b : List (String × Option String)) (h : batchKeysNodup b) :
    batchKeysNodup (mapInsert k v b) := by
  unfold batchKeysNodup at *
  rw [keys_mapInsert]
  by_cases hl : (mapLookup k b).isSome
  · rw [if_pos hl]
    exact h
  · rw [if_neg hl]
    refine List.Nodup.append h (List.nodup_singleton k) ?_
    intro a ha hak
    simp only [List.mem_singleton] at hak
    subst hak
    exact hl ((mapLookup_isSome_iff a b).mpr ha)

theorem mapInsert_length (k : String) (v : Option String)
    (b : List (String × Option String)) :
    (mapInsert k v b).length =
      if (mapLookup k b).isSome then b.length else b.length + 1 := by
  have := congrArg List.length (keys_mapInsert k v b)
  simp only [List.length_map] at this
  by_cases hl : (mapLookup k b).isSome
  · rw [if_pos hl] at this ⊢
    simpa using this
  · rw [if_neg hl] at this ⊢
    simpa using this

theorem applyUpserts_override (b : List (String × Option String))
    (m : String → Option String) (k : String) (x : Option String)
    (hk : k ∉ b.map Prod.fst) :
    applyUpserts b (fun q => if q = k then x else m q) =
      fun q => if q = k then x else applyUpserts b m q := by
  induction b generalizing m with
  | nil => rfl
  | cons kv rest ih =>
    obtain ⟨k0, v0⟩ := kv
    simp only [List.map_cons, List.mem_cons] at hk
    push_neg at hk
    cases v0 with
    | some v =>
      have hne : ¬ (k0 : String) = k := fun hc => hk.1 hc.symm
      have harg : (fun q => if q = k0 then some v else if q = k then x else m q) =
          (fun q => if q = k then x else if q = k0 then some v else m q) := by
        funext q
        by_cases h1 : q = k0
        · subst h1
          simp [hne, hk.1, fun hc : q = k => hne (hc ▸ rfl)]
        · by_cases h2 : q = k
          · subst h2
            simp [h1]
          · simp [h1, h2]
      show applyUpserts rest
          (fun q => if q = k0 then some v else if q = k then x else m q) = _
      rw [harg, ih _ hk.2]
      funext q
      by_cases h2 : q = k
      · simp [h2]
      · simp only [if_neg h2]
        rfl
    | none =>
      exact ih m hk.2

/-- The two flush statements together perform a last-operation-wins merge of
the buffered batch into the pending table. -/
theorem flush_apply (b : List (String × Option String))
    (m : String → Option String) (h : batchKeysNodup b) :
    applyDeletes b (applyUpserts b m) = batchApply b m := by
  induction b generalizing m with
  | nil =>
    funext q
    simp [applyDeletes, applyUpserts, batchApply, mapLookup]
  | cons kv rest ih =>
    obtain ⟨k0, v0⟩ := kv
    unfold batchKeysNodup at h
    simp only [List.map_cons, List.nodup_cons] at h
    have hrest : batchKeysNodup rest := h.2
    have hl0 : mapLookup k0 rest = none := by
      rcases hl : mapLookup k0 rest with _ | w
      · rfl
      · exact absurd ((mapLookup_isSome_iff k0 rest).mp (by simp [hl])) h.1
    cases v0 with
    | some v =>
      show applyDeletes rest
          (applyUpserts rest (fun q => if q = k0 then some v else m q)) = _
      rw [ih _ hrest]
      funext q
      simp only [batchApply, mapLookup_cons]
      by_cases hq : k0 = q
      · subst hq
        simp [hl0]
      · rw [if_neg hq]
        rcases hl : mapLookup q rest with _ | w
        · have hne : ¬ q = k0 := fun hc => hq hc.symm
          simp [hl, hne]
        · simp [hl]
    | none =>
      have hover := applyUpserts_override rest m k0 none h.1
      show applyDeletes rest
          (fun q => if q = k0 then none else applyUpserts rest m q) = _
      rw [← hover, ih _ hrest]
      funext q
      simp only [batchApply, mapLookup_cons]
      by_cases hq : k0 = q
      · subst hq
        simp [hl0]
      · rw [if_neg hq]
        rcases hl : mapLookup q rest with _ | w
        · have hne : ¬ q = k0 := fun hc => hq hc.symm
          simp [hl, hne]
        · simp [hl]

theorem flush_all_ok (l : LedgerUpdaterTx) :
    flushLedgerEntryBatch true true l =
      (false, { l with txPending := { l.txPending with
        entries := applyDeletes l.keyToEntryBatch
          (applyUpserts l.keyToEntryBatch l.txPending.entries) } }) := by
  simp [flushLedgerEntryBatch]

theorem flush_preserves (uOk dOk : Bool) (l : LedgerUpdaterTx) :
    (flushLedgerEntryBatch uOk dOk l).2.committedDB = l.committedDB ∧
    (flushLedgerEntryBatch uOk dOk l).2.txOpen = l.txOpen ∧
    (flushLedgerEntryBatch uOk dOk l).2.keyToEntryBatch = l.keyToEntryBatch ∧
    (flushLedgerEntryBatch uOk dOk l).2.forLedgerSequence = l.forLedgerSequence ∧
    (flushLedgerEntryBatch uOk dOk l).2.maxBatchSize = l.maxBatchSize ∧
    (flushLedgerEntryBatch uOk dOk l).2.txPending.latestSeq = l.txPending.latestSeq := by
  unfold flushLedgerEntryBatch
  dsimp only
  split_ifs <;> simp

/-- Successful buffered upsert: no error, keys stay distinct, the
reader-visible store and transaction bookkeeping are untouched, and the
merged view maps `k` to the new entry. -/
theorem upsert_ok_spec (k v : String) (l : LedgerUpdaterTx)
    (h : batchKeysNodup l.keyToEntryBatch) :
    (UpsertLedgerEntry (some (k, v)) true true l).1 = false ∧
    batchKeysNodup (UpsertLedgerEntry (some (k, v)) true true l).2.keyToEntryBatch ∧
    (UpsertLedgerEntry (some (k, v)) true true l).2.committedDB = l.committedDB ∧
    (UpsertLedgerEntry (some (k, v)) true true l).2.forLedgerSequence =
      l.forLedgerSequence ∧
    (UpsertLedgerEntry (some (k, v)) true true l).2.txPending.latestSeq =
      l.txPending.latestSeq ∧
    (∀ q, mergeView (UpsertLedgerEntry (some (k, v)) true true l).2 q =
      if k = q then some v else mergeView l q) := by
  have hnodup1 : batchKeysNodup (mapInsert k (some v) l.keyToEntryBatch) :=
    mapInsert_nodup _ _ _ h
  have hmv1 : ∀ q,
      mergeView { l with
        keyToEntryBatch := mapInsert k (some v) l.keyToEntryBatch } q =
      if k = q then some v else mergeView l q := by
    intro q
    unfold mergeView
    dsimp only
    rw [mapLookup_mapInsert]
    by_cases hq : k = q
    · simp [hq]
    · rw [if_neg hq, if_neg hq]
  unfold UpsertLedgerEntry upsertLedgerEntry
  dsimp only
  by_cases hfl : l.maxBatchSize ≤ (mapInsert k (some v) l.keyToEntryBatch).length
  · rw [if_pos hfl, flush_all_ok]
    dsimp only
    refine ⟨rfl, by simp [batchKeysNodup], rfl, rfl, rfl, ?_⟩
    intro q
    show applyDeletes (mapInsert k (some v) l.keyToEntryBatch)
      (applyUpserts (mapInsert k (some v) l.keyToEntryBatch) l.txPending.entries) q = _
    rw [flush_apply _ _ hnodup1]
    exact hmv1 q
  · rw [if_neg hfl]
    exact ⟨rfl, hnodup1, rfl, rfl, rfl, hmv1⟩

/-- Successful buffered deletion: symmetric to `upsert_ok_spec`. -/
theorem delete_ok_spec (k : String) (l : LedgerUpdaterTx)
    (h : batchKeysNodup l.keyToEntryBatch) :
    (DeleteLedgerEntry (some k) true true l).1 = false ∧
    batchKeysNodup (DeleteLedgerEntry (some k) true true l).2.keyToEntryBatch ∧
    (DeleteLedgerEntry (some k) true true l).2.committedDB = l.committedDB ∧
    (DeleteLedgerEntry (some k) true true l).2.forLedgerSequence =
      l.forLedgerSequence ∧
    (DeleteLedgerEntry (some k) true true l).2.txPending.latestSeq =
      l.txPending.latestSeq ∧
    (∀ q, mergeView (DeleteLedgerEntry (some k) true true l).2 q =
      if k = q then none else mergeView l q) := by
  have hnodup1 : batchKeysNodup (mapInsert k none l.keyToEntryBatch) :=
    mapInsert_nodup _ _ _ h
  have hmv1 : ∀ q,
      mergeView { l with keyToEntryBatch := mapInsert k none l.keyToEntryBatch } q =
      if k = q then none else mergeView l q := by
    intro q
    unfold mergeView
    dsimp only
    rw [mapLookup_mapInsert]
    by_cases hq : k = q
    · simp [hq]
    · rw [if_neg hq, if_neg hq]
  unfold DeleteLedgerEntry deleteLedgerEntry
  dsimp only
  by_cases hfl : l.maxBatchSize < (mapInsert k none l.keyToEntryBatch).length
  · rw [if_pos hfl, flush_all_ok]
    dsimp only
    refine ⟨rfl, by simp [batchKeysNodup], rfl, rfl, rfl, ?_⟩
    intro q
    show applyDeletes (mapInsert k none l.keyToEntryBatch)
      (applyUpserts (mapInsert k none l.keyToEntryBatch) l.txPending.entries) q = _
    rw [flush_apply _ _ hnodup1]
    exact hmv1 q
  · rw [if_neg hfl]
    exact ⟨rfl, hnodup1, rfl, rfl, rfl, hmv1⟩

/-- One buffered operation of an entry-store transaction. -/
inductive EntryOp
  | upsert (key entry : String)
  | delete (key : String)
deriving DecidableEq, Repr

def applyEntryOp (l : LedgerUpdaterTx) : EntryOp → Bool × LedgerUpdaterTx
  | .upsert k v => UpsertLedgerEntry (some (k, v)) true true l
  | .delete k => DeleteLedgerEntry (some k) true true l

/-- Run a sequence of buffered operations, stopping at the first error (the
Go caller aborts the ledger on error). -/
def runEntryOps (l : LedgerUpdaterTx) : List EntryOp → Bool × LedgerUpdaterTx
  | [] => (false, l)
  | op :: rest =>
    match applyEntryOp l op with
    | (true, l') => (true, l')
    | (false, l') => runEntryOps l' rest

/-- The effect of the last operation on key `k` in `ops`, if any. -/
def lastOp (ops : List EntryOp) (k : String) : Option (Option String) :=
  ops.foldl (fun acc op =>
    match op with
    | .upsert k' v => if k' = k then some (some v) else acc
    | .delete k' => if k' = k then some none else acc) none

theorem lastOp_foldl_acc (ops : List EntryOp) (k : String) :
    ∀ acc, ops.foldl (fun acc op =>
      match op with
      | .upsert k' v => if k' = k then some (some v) else acc
      | .delete k' => if k' = k then some none else acc) acc =
      match lastOp ops k with
      | some v => some v
      | none => acc := by
  induction ops with
  | nil => intro acc; simp [lastOp]
  | cons op rest ih =>
    intro acc
    show List.foldl _ (match op with
      | .upsert k' v => if k' = k then some (some v) else acc
      | .delete k' => if k' = k then some none else acc) rest = _
    rw [ih]
    cases op with
    | upsert k' v =>
      have hl : lastOp (EntryOp.upsert k' v :: rest) k =
          match lastOp rest k with
          | some w => some w
          | none => if k' = k then some (some v) else none := by
        show List.foldl _ (if k' = k then some (some v) else none) rest = _
        rw [ih]
      rw [hl]
      rcases lastOp rest k with _ | w
      · by_cases hk : k' = k <;> simp [hk]
      · rfl
    | delete k' =>
      have hl : lastOp (EntryOp.delete k' :: rest) k =
          match lastOp rest k with
          | some w => some w
          | none => if k' = k then some none else none := by
        show List.foldl _ (if k' = k then some none else none) rest = _
        rw [ih]
      rw [hl]
      rcases lastOp rest k with _ | w
      · by_cases hk : k' = k <;> simp [hk]
      · rfl

theorem lastOp_cons (op : EntryOp) (rest : List EntryOp) (k : String) :
    lastOp (op :: rest) k =
      match lastOp rest k with
      | some v => some v
      | none =>
        (match op with
          | .upsert k' v => if k' = k then some (some v) else none
          | .delete k' => if k' = k then some none else none) := by
  cases op with
  | upsert k' v =>
    show List.foldl _ (if k' = k then some (some v) else none) rest = _
    rw [lastOp_foldl_acc]
  | delete k' =>
    show List.foldl _ (if k' = k then some none else none) rest = _
    rw [lastOp_foldl_acc]

/-- Running buffered operations with successful SQL never errors, keeps the
reader-visible store untouched, and updates the merged view of each key to
the last operation on it. -/
theorem runEntryOps_spec (ops : List EntryOp) :
    ∀ l, batchKeysNodup l.keyToEntryBatch →
      (runEntryOps l ops).1 = false ∧
      batchKeysNodup (runEntryOps l ops).2.keyToEntryBatch ∧
      (runEntryOps l ops).2.committedDB = l.committedDB ∧
      (runEntryOps l ops).2.forLedgerSequence = l.forLedgerSequence ∧
      (runEntryOps l ops).2.txPending.latestSeq = l.txPending.latestSeq ∧
      (∀ k, mergeView (runEntryOps l ops).2 k =
        match lastOp ops k with
        | some v => v
        | none => mergeView l k) := by
  induction ops with
  | nil =>
    intro l h
    exact ⟨rfl, h, rfl, rfl, rfl, fun k => by simp [runEntryOps, lastOp]⟩
  | cons op rest ih =>
    intro l h
    have hstep : (applyEntryOp l op).1 = false ∧
        batchKeysNodup (applyEntryOp l op).2.keyToEntryBatch ∧
        (applyEntryOp l op).2.committedDB = l.committedDB ∧
        (applyEntryOp l op).2.forLedgerSequence = l.forLedgerSequence ∧
        (applyEntryOp l op).2.txPending.latestSeq = l.txPending.latestSeq ∧
        (∀ q, mergeView (applyEntryOp l op).2 q =
          match op with
          | .upsert k v => if k = q then some v else mergeView l q
          | .delete k => if k = q then none else mergeView l q) := by
      cases op with
      | upsert k v => exact upsert_ok_spec k v l h
      | delete k => exact delete_ok_spec k l h
    rcases happ : applyEntryOp l op with ⟨e, l'⟩
    rw [happ] at hstep
    dsimp only at hstep
    obtain ⟨he, hn', hc', hf', hl', hmv'⟩ := hstep
    subst he
    have hrun : runEntryOps l (op :: rest) = runEntryOps l' rest := by
      show (match applyEntryOp l op with
        | (true, l') => (true, l')
        | (false, l') => runEntryOps l' rest) = _
      rw [happ]
    rw [hrun]
    obtain ⟨r1, r2, r3, r4, r5, r6⟩ := ih l' hn'
    refine ⟨r1, r2, by rw [r3, hc'], by rw [r4, hf'], by rw [r5, hl'], ?_⟩
    intro k
    rw [r6 k, hmv' k, lastOp_cons]
    rcases lastOp rest k with _ | w
    · cases op with
      | upsert k' v => by_cases hk : k' = k <;> simp [hk]
      | delete k' => by_cases hk : k' = k <;> simp [hk]
    · rfl

/-- `Done` with all injected outcomes successful: commits the merged view
and the target sequence, emitting the four actions in order. -/
theorem done_all_ok (l : LedgerUpdaterTx) (h : batchKeysNodup l.keyToEntryBatch) :
    (Done true true true true true l).1 = false ∧
    (∀ k, (Done true true true true true l).2.1.committedDB.entries k = mergeView l k) ∧
    (Done true true true true true l).2.1.committedDB.latestSeq =
      some l.forLedgerSequence ∧
    (Done true true true true true l).2.2 =
      [DoneAction.flushBatch, DoneAction.setLatest l.forLedgerSequence,
       DoneAction.commitTx, DoneAction.walCheckpoint] := by
  unfold Done doneInner
  rw [flush_all_ok]
  dsimp only [upsertLatestLedgerSequence]
  refine ⟨rfl, ?_, rfl, rfl⟩
  intro k
  show applyDeletes l.keyToEntryBatch
    (applyUpserts l.keyToEntryBatch l.txPending.entries) k = _
  rw [flush_apply _ _ h]
  rfl

theorem doneInner_preserves (uOk dOk sOk : Bool) (l : LedgerUpdaterTx) :
    (doneInner uOk dOk sOk l).2.1.committedDB = l.committedDB := by
  unfold doneInner
  rcases hf : flushLedgerEntryBatch uOk dOk l with ⟨ef, l1⟩
  have hp := (flush_preserves uOk dOk l).1
  rw [hf] at hp
  dsimp only at hp
  cases ef
  · dsimp only
    by_cases hs : sOk <;> simp [hs, hp]
  · exact hp

/-- `Done` on error paths of `done()` (flush or latest-sequence update):
the transaction is rolled back, the reader-visible store is untouched. -/
theorem done_rolls_back (uOk dOk sOk cOk hOk : Bool) (l : LedgerUpdaterTx)
    (h : (doneInner uOk dOk sOk l).1 = true) :
    (Done uOk dOk sOk cOk hOk l).1 = true ∧
    (Done uOk dOk sOk cOk hOk l).2.1.committedDB = l.committedDB ∧
    (Done uOk dOk sOk cOk hOk l).2.1.txOpen = false ∧
    (Done uOk dOk sOk cOk hOk l).2.1.txPending = l.committedDB := by
  unfold Done
  rcases hd : doneInner uOk dOk sOk l with ⟨ed, l1, tr⟩
  rw [hd] at h
  dsimp only at h
  subst h
  have hp := doneInner_preserves uOk dOk sOk l
  rw [hd] at hp
  dsimp only at hp
  exact ⟨rfl, hp, rfl, hp⟩

/-- `Done`: on success the four actions run in order (flush, set latest,
commit, checkpoint); whenever the commit action ran, the committed store
reports the target sequence as latest. -/
theorem done_trace_and_latest (uOk dOk sOk cOk hOk : Bool) (l : LedgerUpdaterTx) :
    ((Done uOk dOk sOk cOk hOk l).1 = false →
      (Done uOk dOk sOk cOk hOk l).2.2 =
        [DoneAction.flushBatch, DoneAction.setLatest l.forLedgerSequence,
         DoneAction.commitTx, DoneAction.walCheckpoint]) ∧
    (DoneAction.commitTx ∈ (Done uOk dOk sOk cOk hOk l).2.2 →
      getLatestLedgerSequence (Done uOk dOk sOk cOk hOk l).2.1.committedDB =
        .ok l.forLedgerSequence) := by
  unfold Done doneInner
  rcases hf : flushLedgerEntryBatch uOk dOk l with ⟨ef, l1⟩
  have hfseq := (flush_preserves uOk dOk l).2.2.2.1
  rw [hf] at hfseq
  dsimp only at hfseq
  cases ef
  · by_cases hs : sOk
    · simp only [hs, Bool.not_true]
      by_cases hc : cOk
      · simp only [hc, Bool.not_true]
        by_cases hh : hOk
        · simp only [hh, Bool.not_true]
          constructor
          · intro _
            simp [hfseq]
          · intro _
            simp [getLatestLedgerSequence, upsertLatestLedgerSequence, hfseq]
        · simp only [hh, Bool.not_false]
          refine ⟨fun hcon => by simp at hcon, fun _ => ?_⟩
          simp [getLatestLedgerSequence, upsertLatestLedgerSequence, hfseq]
      · simp only [hc, Bool.not_false]
        refine ⟨fun hcon => by simp at hcon, fun hmem => ?_⟩
        simp at hmem
    · simp only [hs, Bool.not_false]
      refine ⟨fun hcon => by simp at hcon, fun hmem => ?_⟩
      simp at hmem
  · dsimp only
    refine ⟨fun hcon => by simp at hcon, fun hmem => ?_⟩
    simp at hmem

/-- Errors from `UpsertLedgerEntry` and `DeleteLedgerEntry` always roll the
transaction back before returning: the reader-visible store is untouched
and the transaction is closed with its pending writes discarded. -/
theorem upsert_error_rolls_back (enc : Option (String × String))
    (uOk dOk : Bool) (l : LedgerUpdaterTx)
    (h : (UpsertLedgerEntry enc uOk dOk l).1 = true) :
    (UpsertLedgerEntry enc uOk dOk l).2.committedDB = l.committedDB ∧
    (UpsertLedgerEntry enc uOk dOk l).2.txOpen = false ∧
    (UpsertLedgerEntry enc uOk dOk l).2.txPending = l.committedDB := by
  have hinner : (upsertLedgerEntry enc uOk dOk l).2.committedDB = l.committedDB := by
    unfold upsertLedgerEntry
    rcases enc with _ | ⟨k, v⟩
    · rfl
    · dsimp only
      by_cases hfl : l.maxBatchSize ≤ (mapInsert k (some v) l.keyToEntryBatch).length
      · rw [if_pos hfl]
        rcases hf : flushLedgerEntryBatch uOk dOk
            { l with keyToEntryBatch := mapInsert k (some v) l.keyToEntryBatch }
            with ⟨ef, l2⟩
        have hp := (flush_preserves uOk dOk
          { l with keyToEntryBatch := mapInsert k (some v) l.keyToEntryBatch }).1
        rw [hf] at hp
        cases ef <;> simpa using hp
      · rw [if_neg hfl]

  unfold UpsertLedgerEntry at h ⊢
  rcases hu : upsertLedgerEntry enc uOk dOk l with ⟨eu, l'⟩
  rw [hu] at h hinner
  dsimp only at h hinner
  cases eu
  · simp at h
  · exact ⟨hinner, rfl, hinner⟩

theorem delete_error_rolls_back (enc : Option String)
    (uOk dOk : Bool) (l : LedgerUpdaterTx)
    (h : (DeleteLedgerEntry enc uOk dOk l).1 = true) :
    (DeleteLedgerEntry enc uOk dOk l).2.committedDB = l.committedDB ∧
    (DeleteLedgerEntry enc uOk dOk l).2.txOpen = false ∧
    (DeleteLedgerEntry enc uOk dOk l).2.txPending = l.committedDB := by
  have hinner : (deleteLedgerEntry enc uOk dOk l).2.committedDB = l.committedDB := by
    unfold deleteLedgerEntry
    rcases enc with _ | k
    · rfl
    · dsimp only
      by_cases hfl : l.maxBatchSize < (mapInsert k none l.keyToEntryBatch).length
      · rw [if_pos hfl]
        rcases hf : flushLedgerEntryBatch uOk dOk
            { l with keyToEntryBatch := mapInsert k none l.keyToEntryBatch }
            with ⟨ef, l2⟩
        have hp := (flush_preserves uOk dOk
          { l with keyToEntryBatch := mapInsert k none l.keyToEntryBatch }).1
        rw [hf] at hp
        cases ef <;> simpa using hp
      · rw [if_neg hfl]

  unfold DeleteLedgerEntry at h ⊢
  rcases hu : deleteLedgerEntry enc uOk dOk l with ⟨eu, l'⟩
  rw [hu] at h hinner
  dsimp only at h hinner
  cases eu
  · simp at h
  · exact ⟨hinner, rfl, hinner⟩

/-! ### Event ingestion (`events.go`: `readEvents`, `IngestEvents`) -/

/-- One transaction yielded by the ledger-transaction reader: its index,
result success flag, and the outcome of `GetOperationEvents` per operation. -/
structure ParsedTx where
  index : Nat
  successful : Bool
  opEvents : List (Except Unit (List ContractEvent))
deriving Repr

/-- The ledger close record, abstracted to what `readEvents` consumes:
sequence and close time from the header, the outcome of constructing and
draining the transaction reader, and the outcome of its deferred close. -/
structure LedgerCloseMeta where
  seq : Nat
  closeTime : Int
  txRead : Except Unit (List ParsedTx)
  closeOk : Bool

/-- The inner loop of `readEvents` over one transaction's operations:
`GetOperationEvents(i)` for each operation, appending the events with their
positions. -/
def readOpsEvents (txIndex : Nat) (opIndex : Nat) :
    List (Except Unit (List ContractEvent)) → Except Unit (List Event)
  | [] => .ok []
  | op :: rest =>
    match op with
    | .error e => .error e
    | .ok opEvents =>
      match readOpsEvents txIndex (opIndex + 1) rest with
      | .error e => .error e
      | .ok evs =>
        .ok ((opEvents.enum.map fun p =>
          { contents := p.2, txIndex := txIndex, opIndex := opIndex,
            eventIndex := p.1 }) ++ evs)

/-- The outer loop of `readEvents`: read each transaction, skipping
unsuccessful ones (`continue`). -/
def readTxEvents : List ParsedTx → Except Unit (List Event)
  | [] => .ok []
  | tx :: rest =>
    if tx.successful = false then readTxEvents rest
    else
      match readOpsEvents tx.index 0 tx.opEvents with
      | .error e => .error e
      | .ok evs =>
        match readTxEvents rest with
        | .error e => .error e
        | .ok evs' => .ok (evs ++ evs')

/-- `readEvents` from `events.go`: the deferred `txReader.Close()` error
surfaces only when no earlier error occurred. -/
def readEvents (lcm : LedgerCloseMeta) : Except Unit (List Event) :=
  match lcm.txRead with
  | .error e => .error e
  | .ok txs =>
    match readTxEvents txs with
    | .error e => .error e
    | .ok events => if lcm.closeOk then .ok events else .error ()

/-- `MemoryStore.IngestEvents`: parse, then append the ledger's bucket
(evicting when the window is full).  Returns (errored?, updated store). -/
def MemoryStore.IngestEvents (m : MemoryStore) (ledgerCloseMeta : LedgerCloseMeta) :
    Bool × MemoryStore :=
  match readEvents ledgerCloseMeta with
  | .error _ => (true, m)
  | .ok events =>
    let bucket : LedgerBucket (List Event) :=
      { LedgerSeq := ledgerCloseMeta.seq,
        LedgerCloseTimestamp := ledgerCloseMeta.closeTime,
        BucketContent := events }
    (false, { m with eventsByLedger := m.eventsByLedger.Append bucket })

/-- Specification side: the events of exactly the successful transactions,
flattened in order, each with its `(tx_index, op_index, event_index)`. -/
def successfulTxEvents (txs : List ParsedTx) : List Event :=
  (txs.filter (fun tx => tx.successful)).flatMap fun tx =>
    (tx.opEvents.enum.flatMap fun op =>
      match op.2 with
      | .ok opEvents => opEvents.enum.map fun p =>
          { contents := p.2, txIndex := tx.index, opIndex := op.1, eventIndex := p.1 }
      | .error _ => [])

theorem readOpsEvents_ok (txIndex : Nat) :
    ∀ (ops : List (Except Unit (List ContractEvent))) (opIndex : Nat)
      (evs : List Event), readOpsEvents txIndex opIndex ops = .ok evs →
      evs = (List.enumFrom opIndex ops).flatMap fun op =>
        match op.2 with
        | .ok opEvents => opEvents.enum.map fun p =>
            { contents := p.2, txIndex := txIndex, opIndex := op.1, eventIndex := p.1 }
        | .error _ => [] := by
  intro ops
  induction ops with
  | nil =>
    intro opIndex evs h
    simp [readOpsEvents] at h
    simp [← h]
  | cons op rest ih =>
    intro opIndex evs h
    cases op with
    | error e => simp [readOpsEvents] at h
    | ok opEvents =>
      simp only [readOpsEvents] at h
      rcases hrest : readOpsEvents txIndex (opIndex + 1) rest with e' | evs'
      · rw [hrest] at h
        simp at h
      · rw [hrest] at h
        simp only [Except.ok.injEq] at h
        subst h
        have hih := ih (opIndex + 1) evs' hrest
        rw [hih]
        simp [List.enumFrom, List.flatMap_cons]

theorem readTxEvents_ok :
    ∀ (txs : List ParsedTx) (evs : List Event),
      readTxEvents txs = .ok evs → evs = successfulTxEvents txs := by
  intro txs
  induction txs with
  | nil =>
    intro evs h
    simp [readTxEvents] at h
    simp [← h, successfulTxEvents]
  | cons tx rest ih =>
    intro evs h
    by_cases hsucc : tx.successful = false
    · rw [readTxEvents, if_pos hsucc] at h
      rw [ih evs h]
      unfold successfulTxEvents
      rw [List.filter_cons, if_neg (by simp [hsucc])]
    · rw [readTxEvents, if_neg hsucc] at h
      rcases hops : readOpsEvents tx.index 0 tx.opEvents with e' | evs1
      · rw [hops] at h
        simp at h
      · rw [hops] at h
        rcases hrest : readTxEvents rest with e' | evs2
        · rw [hrest] at h
          simp at h
        · rw [hrest] at h
          simp only [Except.ok.injEq] at h
          subst h
          have h1 := readOpsEvents_ok tx.index tx.opEvents 0 evs1 hops
          have h2 := ih evs2 hrest
          have hsucc' : tx.successful = true := by
            revert hsucc
            cases tx.successful <;> simp
          unfold successfulTxEvents
          rw [List.filter_cons, if_pos (by simp [hsucc']), List.flatMap_cons]
          rw [h1, h2]
          rfl

/-- `IngestEvents` on a successfully parsed record appends exactly the
bucket of the successful transactions' events; on a parse failure the
store is returned unchanged with the error. -/
theorem ingestEvents_spec (m : MemoryStore) (lcm : LedgerCloseMeta) :
    ((m.IngestEvents lcm).1 = true → (m.IngestEvents lcm).2 = m) ∧
    (∀ txs, lcm.txRead = .ok txs → (m.IngestEvents lcm).1 = false →
      (m.IngestEvents lcm).2.eventsByLedger =
        m.eventsByLedger.Append
          { LedgerSeq := lcm.seq, LedgerCloseTimestamp := lcm.closeTime,
            BucketContent := successfulTxEvents txs }) := by
  unfold MemoryStore.IngestEvents
  rcases hre : readEvents lcm with e | evs
  · exact ⟨fun _ => rfl, fun txs htx hcon => by simp at hcon⟩
  · refine ⟨fun hcon => by simp at hcon, fun txs htx _ => ?_⟩
    unfold readEvents at hre
    rw [htx] at hre
    dsimp only at hre
    rcases hrtx : readTxEvents txs with e' | evs'
    · rw [hrtx] at hre
      dsimp only at hre
      simp at hre
    · rw [hrtx] at hre
      dsimp only at hre
      by_cases hclose : lcm.closeOk
      · rw [if_pos hclose] at hre
        simp only [Except.ok.injEq] at hre
        subst hre
        dsimp only
        rw [readTxEvents_ok txs evs' hrtx]
      · rw [if_neg hclose] at hre
        simp at hre

/-! ### Ingestion driver (`ingest/service.go`) -/

/-- Modelled from the spec: the transaction store (E).  Its package is not
in the sources; for the ingestion claims only the ledger sequences of the
ingested buckets are observed. -/
structure TxStore where
  buckets : List Nat
deriving DecidableEq, Repr

/-- The stores the ingestion claims observe: the committed latest sequence
of the entry store (F) — a rolled-back transaction leaves it untouched —
and the in-memory event (D) and transaction (E) stores. -/
structure ServiceState where
  dbLatest : Option Nat
  eventStore : MemoryStore
  txStore : TxStore

/-- Outcomes of the external calls one `ingest(sequence)` performs, in
program order. -/
structure IngestOracle where
  getLedger : Except Unit LedgerCloseMeta
  changeReaderOk : Bool
  newTxOk : Bool
  ingestChangesOk : Bool
  readerCloseOk : Bool
  insertLedgerOk : Bool
  ingestTxOk : Bool
  commitOk : Bool

/-- `Service.ingestLedgerCloseMeta`: InsertLedger, then the event store,
then the transaction store; the in-memory stores mutate immediately. -/
def ingestLedgerCloseMeta (insertLedgerOk ingestTxOk : Bool) (st : ServiceState)
    (ledgerCloseMeta : LedgerCloseMeta) : Bool × ServiceState :=
  if !insertLedgerOk then (true, st)
  else
    match st.eventStore.IngestEvents ledgerCloseMeta with
    | (true, es) => (true, { st with eventStore := es })
    | (false, es) =>
      let st1 := { st with eventStore := es }
      if !ingestTxOk then (true, st1)
      else (false, { st1 with txStore := ⟨st1.txStore.buckets ++ [ledgerCloseMeta.seq]⟩ })

/-- `Service.ingest`: pull the ledger, read its entry changes into a write
transaction, run `ingestLedgerCloseMeta`, and commit; the deferred rollback
discards the transaction on every earlier exit. -/
def Service.ingest (o : IngestOracle) (st : ServiceState) (sequence : Nat) :
    Bool × ServiceState :=
  match o.getLedger with
  | .error _ => (true, st)
  | .ok ledgerCloseMeta =>
    if !o.changeReaderOk then (true, st)
    else if !o.newTxOk then (true, st)
    else if !o.ingestChangesOk then (true, st)
    else if !o.readerCloseOk then (true, st)
    else
      match ingestLedgerCloseMeta o.insertLedgerOk o.ingestTxOk st ledgerCloseMeta with
      | (true, st') => (true, st')
      | (false, st') =>
        if !o.commitOk then (true, st')
        else (false, { st' with dbLatest := some sequence })

/-! ### Retry wrapper (`NewService`, variant with backoff) -/

/-- Outcome of one execution of `service.run`. -/
inductive RunOutcome
  | ok
  | canceled
  | transientErr
deriving DecidableEq, Repr

inductive RetryEnd
  | succeeded
  | canceledEnd
  | exhausted
deriving DecidableEq, Repr

structure RetryResult where
  outcome : RetryEnd
  runsExecuted : Nat
  waits : List Nat
deriving DecidableEq, Repr

/-- Modelled from the spec: `backoff.RetryNotify` under
`WithContext(WithMaxRetries(NewConstantBackOff(1*time.Second), 5), ctx)` as
installed by `NewService`: re-run on error with a 1-second constant wait,
at most 5 retries, stopping with the cancellation outcome when the run
returned cancellation or the context is cancelled during a wait. -/
def retryRun (outcome : Nat → RunOutcome) (canceledDuringWait : Nat → Bool) :
    Nat → Nat → Nat → List Nat → RetryResult
  | attempt, retriesLeft, runs, waits =>
    match outcome attempt with
    | .ok => ⟨.succeeded, runs + 1, waits⟩
    | .canceled => ⟨.canceledEnd, runs + 1, waits⟩
    | .transientErr =>
      match retriesLeft with
      | 0 => ⟨.exhausted, runs + 1, waits⟩
      | n + 1 =>
        if canceledDuringWait attempt then ⟨.canceledEnd, runs + 1, waits ++ [1]⟩
        else retryRun outcome canceledDuringWait (attempt + 1) n (runs + 1) (waits ++ [1])

/-- The retry loop as configured by `NewService`: 5 max retries at 1 s. -/
def NewServiceRetry (outcome : Nat → RunOutcome) (canceledDuringWait : Nat → Bool) :
    RetryResult :=
  retryRun outcome canceledDuringWait 0 5 0 []

/-- `NewService` calls `logger.Fatal` (terminating the process) iff the
final error is non-nil and not `context.Canceled`. -/
def NewServiceFatal (outcome : Nat → RunOutcome) (canceledDuringWait : Nat → Bool) :
    Bool :=
  match (NewServiceRetry outcome canceledDuringWait).outcome with
  | .exhausted => true
  | _ => false

theorem retryRun_spec (outcome : Nat → RunOutcome) (cdw : Nat → Bool) :
    ∀ (n a runs : Nat) (waits : List Nat),
      ∃ extra : List Nat,
        (retryRun outcome cdw a n runs waits).waits = waits ++ extra ∧
        (∀ w ∈ extra, w = 1) ∧ extra.length ≤ n ∧
        (retryRun outcome cdw a n runs waits).runsExecuted ≤
          runs + 1 + extra.length ∧
        ((retryRun outcome cdw a n runs waits).outcome = RetryEnd.exhausted →
          (retryRun outcome cdw a n runs waits).runsExecuted =
            runs + 1 + extra.length ∧ extra.length = n) := by
  intro n
  induction n with
  | zero =>
    intro a runs waits
    rcases ho : outcome a with _ | _ | _ <;>
      exact ⟨[], by simp [retryRun, ho], by simp, by simp,
        by simp [retryRun, ho], by simp [retryRun, ho]⟩
  | succ m ih =>
    intro a runs waits
    rcases ho : outcome a with _ | _ | _
    · exact ⟨[], by simp [retryRun, ho], by simp, by simp,
        by simp [retryRun, ho], by simp [retryRun, ho]⟩
    · exact ⟨[], by simp [retryRun, ho], by simp, by simp,
        by simp [retryRun, ho], by simp [retryRun, ho]⟩
    · by_cases hc : cdw a
      · refine ⟨[1], by simp [retryRun, ho, hc], by simp, by simp, ?_, ?_⟩
        · simp [retryRun, ho, hc]
        · simp [retryRun, ho, hc]
      · obtain ⟨extra, h1, h2, h3, h4, h5⟩ := ih (a + 1) (runs + 1) (waits ++ [1])
        have hr : retryRun outcome cdw a (m + 1) runs waits =
            retryRun outcome cdw (a + 1) m (runs + 1) (waits ++ [1]) := by
          rw [retryRun]
          simp [ho, hc]
        refine ⟨1 :: extra, ?_, ?_, ?_, ?_, ?_⟩
        · rw [hr, h1]
          simp
        · intro w hw
          rw [List.mem_cons] at hw
          rcases hw with hw | hw
          · exact hw
          · exact h2 w hw
        · simpa using Nat.succ_le_succ h3
        · rw [hr]
          simpa [Nat.add_comm, Nat.add_left_comm, Nat.add_assoc] using h4
        · intro hex
          rw [hr] at hex ⊢
          obtain ⟨ha, hb⟩ := h5 hex
          constructor
          · rw [ha]
            simp
            omega
          · simp [hb]

/-! ### Bootstrap (`Service.run`, `maybeFillEntriesFromCheckpoint`) -/

inductive GetLatestResult
  | emptyDB
  | found (n : Nat)
  | failed
deriving DecidableEq, Repr

/-- The entry store as the bootstrap observes it. -/
structure EntryDB where
  latest : Option Nat
  entries : List String
deriving DecidableEq, Repr

/-- Outcomes of the external calls of one `run` invocation up to the
streaming loop. -/
structure RunOracle where
  getLatest : GetLatestResult
  getRoot : Except Unit Nat
  prepareRangeOk : Bool
  checkpointReaderOk : Bool
  newTxOk : Bool
  ingestChangesOk : Bool
  readerCloseOk : Bool
  commitOk : Bool
  checkpointEntries : List String

/-- `Service.fillEntriesFromCheckpoint`: write every checkpoint entry
through a single write transaction and commit it at `checkpointLedger`; any
failure leaves the store unchanged (deferred rollback).
`ingestLedgerEntryChanges` is modelled from the spec (its definition is not
in the sources): it writes every change the reader yields into the open
transaction. -/
def fillEntriesFromCheckpoint (o : RunOracle) (db : EntryDB)
    (checkpointLedger : Nat) : Bool × EntryDB :=
  if !o.checkpointReaderOk then (true, db)
  else if !o.newTxOk then (true, db)
  else if !o.ingestChangesOk then (true, db)
  else if !o.readerCloseOk then (true, db)
  else if !o.commitOk then (true, db)
  else (false, { latest := some checkpointLedger, entries := o.checkpointEntries })

/-- `Service.maybeFillEntriesFromCheckpoint`: skip the baseline if the
store is initialized; otherwise take the most recent checkpoint sequence
from the archive root and run the prefill, streaming from the checkpoint's
successor. -/
def maybeFillEntriesFromCheckpoint (o : RunOracle) (db : EntryDB) :
    Except Unit (Nat × (Bool × EntryDB)) :=
  match o.getLatest with
  | .emptyDB =>
    match o.getRoot with
    | .error _ => .error ()
    | .ok checkpointLedger =>
      .ok (checkpointLedger + 1, fillEntriesFromCheckpoint o db checkpointLedger)
  | .found curLedgerSeq => .ok (curLedgerSeq + 1, (false, db))
  | .failed => .error ()

/-- `Service.run` up to entering the per-ledger streaming loop: decide the
bootstrap, `PrepareRange` over `[nextLedgerSeq, ∞)`, then join the
bootstrap outcome; on success, return the first ledger to stream and the
store contents at that point. -/
def Service.run (o : RunOracle) (db : EntryDB) : Except Unit (Nat × EntryDB) :=
  match maybeFillEntriesFromCheckpoint o db with
  | .error e => .error e
  | .ok (nextLedgerSeq, fillResult) =>
    if !o.prepareRangeOk then .error ()
    else
      match fillResult with
      | (true, _) => .error ()
      | (false, db') => .ok (nextLedgerSeq, db')

/-! ### Helper lemmas for the ingestion-driver claims -/

theorem ingestLedgerCloseMeta_dbLatest (a b : Bool) (st : ServiceState)
    (lcm : LedgerCloseMeta) :
    (ingestLedgerCloseMeta a b st lcm).2.dbLatest = st.dbLatest := by
  rcases hie : st.eventStore.IngestEvents lcm with ⟨e, es⟩
  unfold ingestLedgerCloseMeta
  rw [hie]
  cases a
  · rfl
  · cases e
    · cases b <;> rfl
    · rfl

theorem ingestLedgerCloseMeta_ok (a b : Bool) (st : ServiceState)
    (lcm : LedgerCloseMeta)
    (h : (ingestLedgerCloseMeta a b st lcm).1 = false) :
    (st.eventStore.IngestEvents lcm).1 = false ∧
    (ingestLedgerCloseMeta a b st lcm).2.eventStore =
      (st.eventStore.IngestEvents lcm).2 ∧
    (ingestLedgerCloseMeta a b st lcm).2.txStore.buckets =
      st.txStore.buckets ++ [lcm.seq] := by
  rcases hie : st.eventStore.IngestEvents lcm with ⟨e, es⟩
  unfold ingestLedgerCloseMeta at h ⊢
  rw [hie] at h ⊢
  cases a
  · simp at h
  · cases e
    · cases b
      · simp at h
      · exact ⟨rfl, rfl, rfl⟩
    · simp at h

/-! ### Claim C1 -/

/-- C1: CORRECTED.  The original claim — that on any failure within ledger
N none of the event store (D), transaction store (E) and entry store (F)
retains partial state from N — is false: `ingestLedgerCloseMeta` mutates
the in-memory stores before `tx.Commit`, so a commit failure leaves D and E
advanced to N.  What does hold: the entry store's latest sequence advances
to N exactly when the whole `ingest(N)` succeeded, and success implies all
three stores applied N. -/
theorem c1_ingest_staging (o : IngestOracle) (st : ServiceState) (sequence : Nat) :
    ((Service.ingest o st sequence).1 = true →
      (Service.ingest o st sequence).2.dbLatest = st.dbLatest) ∧
    ((Service.ingest o st sequence).1 = false →
      (Service.ingest o st sequence).2.dbLatest = some sequence ∧
      ∃ lcm, o.getLedger = .ok lcm ∧
        (st.eventStore.IngestEvents lcm).1 = false ∧
        (Service.ingest o st sequence).2.eventStore =
          (st.eventStore.IngestEvents lcm).2 ∧
        (Service.ingest o st sequence).2.txStore.buckets =
          st.txStore.buckets ++ [lcm.seq]) := by
  rcases hgl : o.getLedger with u | lcm
  · refine ⟨fun _ => ?_, fun h => ?_⟩
    · simp [Service.ingest, hgl]
    · simp [Service.ingest, hgl] at h
  · rcases hc1 : o.changeReaderOk with _ | _
    · refine ⟨fun _ => ?_, fun h => ?_⟩
      · simp [Service.ingest, hgl, hc1]
      · simp [Service.ingest, hgl, hc1] at h
    · rcases hc2 : o.newTxOk with _ | _
      · refine ⟨fun _ => ?_, fun h => ?_⟩
        · simp [Service.ingest, hgl, hc1, hc2]
        · simp [Service.ingest, hgl, hc1, hc2] at h
      · rcases hc3 : o.ingestChangesOk with _ | _
        · refine ⟨fun _ => ?_, fun h => ?_⟩
          · simp [Service.ingest, hgl, hc1, hc2, hc3]
          · simp [Service.ingest, hgl, hc1, hc2, hc3] at h
        · rcases hc4 : o.readerCloseOk with _ | _
          · refine ⟨fun _ => ?_, fun h => ?_⟩
            · simp [Service.ingest, hgl, hc1, hc2, hc3, hc4]
            · simp [Service.ingest, hgl, hc1, hc2, hc3, hc4] at h
          · rcases him : ingestLedgerCloseMeta o.insertLedgerOk o.ingestTxOk st lcm
              with ⟨e, st'⟩
            have hdb := ingestLedgerCloseMeta_dbLatest o.insertLedgerOk o.ingestTxOk st lcm
            rw [him] at hdb
            dsimp only at hdb
            cases e
            · rcases hco : o.commitOk with _ | _
              · refine ⟨fun _ => ?_, fun h => ?_⟩
                · simp [Service.ingest, hgl, hc1, hc2, hc3, hc4, him, hco, hdb]
                · simp [Service.ingest, hgl, hc1, hc2, hc3, hc4, him, hco] at h
              · have hok := ingestLedgerCloseMeta_ok o.insertLedgerOk o.ingestTxOk st lcm
                  (by rw [him])
                rw [him] at hok
                dsimp only at hok
                refine ⟨fun h => ?_, fun _ => ?_⟩
                · simp [Service.ingest, hgl, hc1, hc2, hc3, hc4, him, hco] at h
                · refine ⟨?_, lcm, rfl, hok.1, ?_, ?_⟩
                  · simp [Service.ingest, hgl, hc1, hc2, hc3, hc4, him, hco]
                  · simp [Service.ingest, hgl, hc1, hc2, hc3, hc4, him, hco, hok.2.1]
                  · simp [Service.ingest, hgl, hc1, hc2, hc3, hc4, him, hco, hok.2.2]
            · refine ⟨fun _ => ?_, fun h => ?_⟩
              · simp [Service.ingest, hgl, hc1, hc2, hc3, hc4, him, hdb]
              · simp [Service.ingest, hgl, hc1, hc2, hc3, hc4, him] at h

/-- Initial driver state for the C1 instances: empty stores. -/
def c1St0 : ServiceState :=
  { dbLatest := none,
    eventStore := { eventsByLedger := { capacity := 10, buckets := [] } },
    txStore := { buckets := [] } }

/-- Oracle for the C1 witness: every external call succeeds. -/
def c1AllOk : IngestOracle :=
  { getLedger := .ok { seq := 5, closeTime := 0, txRead := .ok [], closeOk := true },
    changeReaderOk := true, newTxOk := true, ingestChangesOk := true,
    readerCloseOk := true, insertLedgerOk := true, ingestTxOk := true,
    commitOk := true }

theorem c1_ingest_staging_witness :
    (Service.ingest c1AllOk c1St0 5).2.dbLatest = some 5 :=
  ((c1_ingest_staging c1AllOk c1St0 5).2 (by rfl)).1

/-- One successful transaction carrying one event, for the C1 instance. -/
def c1Tx : ParsedTx :=
  { index := 1, successful := true, opEvents := [.ok [{ id := 7 }]] }

/-- The event `c1Tx` contributes to ledger 5's bucket. -/
def c1Event : Event :=
  { contents := { id := 7 }, txIndex := 1, opIndex := 0, eventIndex := 0 }

/-- Oracle for the C1 counterexample: everything succeeds except the final
entry-store commit. -/
def c1CommitFails : IngestOracle :=
  { getLedger := .ok { seq := 5, closeTime := 0, txRead := .ok [c1Tx], closeOk := true },
    changeReaderOk := true, newTxOk := true, ingestChangesOk := true,
    readerCloseOk := true, insertLedgerOk := true, ingestTxOk := true,
    commitOk := false }

/-- C1 counterexample: ingesting ledger 5 fails at the entry-store commit,
yet the event store holds ledger 5's bucket and the transaction store holds
ledger 5 — partial state is retained on failure, contradicting the claim. -/
theorem c1_ingest_staging_counterexample :
    (Service.ingest c1CommitFails c1St0 5).1 = true ∧
    (Service.ingest c1CommitFails c1St0 5).2.dbLatest = none ∧
    (Service.ingest c1CommitFails c1St0 5).2.eventStore.eventsByLedger.buckets =
      [{ LedgerSeq := 5, LedgerCloseTimestamp := 0, BucketContent := [c1Event] }] ∧
    (Service.ingest c1CommitFails c1St0 5).2.txStore.buckets = [5] :=
  ⟨rfl, rfl, rfl, rfl⟩

/-! ### Claim C2 -/

/-- C2: For every non-empty event store satisfying the window invariants
(contiguous bucket sequences, per-bucket events sorted by cursor) and every
range accepted by validation, `Scan` makes exactly the visitor calls of the
trace over the stored events with cursor in `[Start, End)` of the clamped
range — in strictly ascending cursor order, stopping at the first `false`
(cursors at or past `End` are never visited, being filtered out) — and
returns `earliest + len - 1` as the latest ledger. -/
theorem c2_scan_visits (m : MemoryStore) (r r' : Range)
    (f : ContractEvent → Cursor → Int → Bool)
    (hcont : contiguousBuckets m.eventsByLedger.buckets)
    (hsort : bucketsSorted m.eventsByLedger.buckets)
    (hvalid : m.validateRange r = .ok r') :
    m.Scan r f =
      (visitTrace f ((bucketVisits m.eventsByLedger.buckets).filter
          (visitInRange r'.Start r'.End)),
        .ok ((m.eventsByLedger.Get 0).LedgerSeq + (m.eventsByLedger.Len - 1))) ∧
    List.Pairwise (fun v1 v2 => Cursor.lt v1.cursor v2.cursor)
      ((bucketVisits m.eventsByLedger.buckets).filter
        (visitInRange r'.Start r'.End)) :=
  scan_matches_spec m r r' f hcont hsort hvalid

/-- Visitor that accepts every event (used by concrete instances). -/
def alwaysTrueVisitor : ContractEvent → Cursor → Int → Bool := fun _ _ _ => true

/-- The single stored event of the C2 witness store. -/
def c2Event : Event :=
  { contents := { id := 1 }, txIndex := 0, opIndex := 0, eventIndex := 0 }

/-- Store with a single bucket for the C2 witness. -/
def c2Store : MemoryStore :=
  { eventsByLedger := { capacity := 4, buckets :=
      [{ LedgerSeq := 1, LedgerCloseTimestamp := 0, BucketContent := [c2Event] }] } }

def c2Range : Range :=
  { Start := ⟨1, 0, 0, 0⟩, ClampStart := false, End := ⟨2, 0, 0, 0⟩,
    ClampEnd := false }

theorem c2_scan_visits_witness :
    c2Store.Scan c2Range alwaysTrueVisitor =
      (visitTrace alwaysTrueVisitor
          ((bucketVisits c2Store.eventsByLedger.buckets).filter
            (visitInRange c2Range.Start c2Range.End)),
        .ok ((c2Store.eventsByLedger.Get 0).LedgerSeq +
          (c2Store.eventsByLedger.Len - 1))) ∧
    List.Pairwise (fun v1 v2 => Cursor.lt v1.cursor v2.cursor)
      ((bucketVisits c2Store.eventsByLedger.buckets).filter
        (visitInRange c2Range.Start c2Range.End)) :=
  c2_scan_visits c2Store c2Range c2Range alwaysTrueVisitor
    (by simp [contiguousBuckets, c2Store])
    (by simp [bucketsSorted, c2Store])
    (by rfl)

/-! ### Claim C3 -/

/-- C3: `validateRange` implements exactly the claimed cascade — empty
store, start-clamping or "start is before oldest ledger", "start is after
newest ledger" at or beyond `latest+1`, end-clamping or "end is after
latest ledger", and "start is not before end" — and on any validation
error `Scan` makes no visitor call and returns that error. -/
theorem c3_validate_cascade (m : MemoryStore) (r : Range)
    (f : ContractEvent → Cursor → Int → Bool) :
    m.validateRange r =
      claimValidate m.eventsByLedger.Len (m.eventsByLedger.Get 0).LedgerSeq r ∧
    (∀ e, m.validateRange r = .error e → m.Scan r f = ([], .error e)) := by
  refine ⟨validateRange_eq_claimValidate m r, fun e he => ?_⟩
  unfold MemoryStore.Scan
  rw [he]

def c3Store : MemoryStore := { eventsByLedger := { capacity := 4, buckets := [] } }

theorem c3_validate_cascade_witness :
    c3Store.Scan c2Range alwaysTrueVisitor =
      ([], .error "event store is empty") :=
  (c3_validate_cascade c3Store c2Range alwaysTrueVisitor).2
    "event store is empty" (by rfl)

/-! ### Claim C4 -/

/-- C4: A successful `Done` performs, in order: final batch flush, update
of the `LatestLedgerSequence` row to the target sequence, transaction
commit, and the `wal_checkpoint(TRUNCATE)` hook; and whenever the commit
action ran, `getLatestLedgerSequence` on the committed store returns the
target sequence. -/
theorem c4_done_commit (uOk dOk sOk cOk hOk : Bool) (l : LedgerUpdaterTx) :
    ((Done uOk dOk sOk cOk hOk l).1 = false →
      (Done uOk dOk sOk cOk hOk l).2.2 =
        [DoneAction.flushBatch, DoneAction.setLatest l.forLedgerSequence,
         DoneAction.commitTx, DoneAction.walCheckpoint]) ∧
    (DoneAction.commitTx ∈ (Done uOk dOk sOk cOk hOk l).2.2 →
      getLatestLedgerSequence (Done uOk dOk sOk cOk hOk l).2.1.committedDB =
        .ok l.forLedgerSequence) :=
  done_trace_and_latest uOk dOk sOk cOk hOk l

/-- Reader-visible store with no entries and no latest sequence. -/
def emptyDBState : DBState := { entries := fun _ => none, latestSeq := none }

/-- Fresh updater at target sequence 10 with the production batch size. -/
def freshTx : LedgerUpdaterTx := NewLedgerEntryUpdaterTx emptyDBState 10 150

theorem c4_done_commit_witness :
    (Done true true true true true freshTx).2.2 =
      [DoneAction.flushBatch, DoneAction.setLatest freshTx.forLedgerSequence,
       DoneAction.commitTx, DoneAction.walCheckpoint] ∧
    getLatestLedgerSequence (Done true true true true true freshTx).2.1.committedDB =
      .ok freshTx.forLedgerSequence :=
  ⟨(c4_done_commit true true true true true freshTx).1 (by rfl),
   (c4_done_commit true true true true true freshTx).2 (by decide)⟩

/-! ### Claim C5 -/

/-- C5: For any sequence of buffered upserts and deletes in one entry-store
transaction (across any intermediate flushes), committing makes each key
read back as the last operation on it within the transaction (falling back
to the pre-transaction view), with the latest sequence set to the target. -/
theorem c5_last_write_wins (ops : List EntryOp) (l : LedgerUpdaterTx)
    (h : batchKeysNodup l.keyToEntryBatch) :
    (runEntryOps l ops).1 = false ∧
    (Done true true true true true (runEntryOps l ops).2).1 = false ∧
    (Done true true true true true (runEntryOps l ops).2).2.1.committedDB.latestSeq =
      some l.forLedgerSequence ∧
    (∀ k, (Done true true true true true (runEntryOps l ops).2).2.1.committedDB.entries k =
      match lastOp ops k with
      | some v => v
      | none => mergeView l k) := by
  obtain ⟨h1, h2, h3, h4, h5, h6⟩ := runEntryOps_spec ops l h
  obtain ⟨d1, d2, d3, d4⟩ := done_all_ok (runEntryOps l ops).2 h2
  refine ⟨h1, d1, by rw [d3, h4], fun k => ?_⟩
  rw [d2 k, h6 k]

def c5Ops : List EntryOp := [EntryOp.upsert "k" "v", EntryOp.delete "k"]

theorem c5_last_write_wins_witness :
    (Done true true true true true (runEntryOps freshTx c5Ops).2).2.1.committedDB.latestSeq =
      some 10 ∧
    (Done true true true true true (runEntryOps freshTx c5Ops).2).2.1.committedDB.entries "k" =
      none := by
  have h := c5_last_write_wins c5Ops freshTx
    (by simp [freshTx, NewLedgerEntryUpdaterTx, batchKeysNodup])
  exact ⟨h.2.2.1, (h.2.2.2 "k").trans (by rfl)⟩

/-! ### Claim C6 -/

/-- C6: CORRECTED.  The upsert path flushes when the buffer size has
reached `max_batch_size` (`>=`), but the delete path flushes only when the
size strictly exceeds it (`>`), so after a buffered delete the buffer can
sit at exactly `max_batch_size` — the claim that after any single buffered
operation the size is strictly below `max_batch_size` is false.  The
corrected bounds: after an upsert the size is strictly below the maximum;
after a delete it is at most the maximum; the flush-and-clear fires at
`>=` for upserts and at `>` for deletes. -/
theorem c6_batch_flush_bounds (k v q : String) (l : LedgerUpdaterTx)
    (hle : l.keyToEntryBatch.length ≤ l.maxBatchSize)
    (hmax : 0 < l.maxBatchSize) :
    (UpsertLedgerEntry (some (k, v)) true true l).1 = false ∧
    (UpsertLedgerEntry (some (k, v)) true true l).2.keyToEntryBatch.length <
      l.maxBatchSize ∧
    (l.maxBatchSize ≤ (mapInsert k (some v) l.keyToEntryBatch).length →
      (UpsertLedgerEntry (some (k, v)) true true l).2.keyToEntryBatch = []) ∧
    ((mapInsert k (some v) l.keyToEntryBatch).length < l.maxBatchSize →
      (UpsertLedgerEntry (some (k, v)) true true l).2.keyToEntryBatch =
        mapInsert k (some v) l.keyToEntryBatch) ∧
    (DeleteLedgerEntry (some q) true true l).1 = false ∧
    (DeleteLedgerEntry (some q) true true l).2.keyToEntryBatch.length ≤
      l.maxBatchSize ∧
    (l.maxBatchSize < (mapInsert q none l.keyToEntryBatch).length →
      (DeleteLedgerEntry (some q) true true l).2.keyToEntryBatch = []) ∧
    ((mapInsert q none l.keyToEntryBatch).length ≤ l.maxBatchSize →
      (DeleteLedgerEntry (some q) true true l).2.keyToEntryBatch =
        mapInsert q none l.keyToEntryBatch) := by
  have hu : (UpsertLedgerEntry (some (k, v)) true true l).1 = false ∧
      (UpsertLedgerEntry (some (k, v)) true true l).2.keyToEntryBatch.length <
        l.maxBatchSize ∧
      (l.maxBatchSize ≤ (mapInsert k (some v) l.keyToEntryBatch).length →
        (UpsertLedgerEntry (some (k, v)) true true l).2.keyToEntryBatch = []) ∧
      ((mapInsert k (some v) l.keyToEntryBatch).length < l.maxBatchSize →
        (UpsertLedgerEntry (some (k, v)) true true l).2.keyToEntryBatch =
          mapInsert k (some v) l.keyToEntryBatch) := by
    unfold UpsertLedgerEntry upsertLedgerEntry
    dsimp only
    by_cases hc : l.maxBatchSize ≤ (mapInsert k (some v) l.keyToEntryBatch).length
    · rw [if_pos hc, flush_all_ok]
      exact ⟨rfl, by simpa using hmax, fun _ => rfl, fun hlt => absurd hc (by omega)⟩
    · rw [if_neg hc]
      exact ⟨rfl, Nat.lt_of_not_le hc, fun hge => absurd hge hc, fun _ => rfl⟩
  have hd : (DeleteLedgerEntry (some q) true true l).1 = false ∧
      (DeleteLedgerEntry (some q) true true l).2.keyToEntryBatch.length ≤
        l.maxBatchSize ∧
      (l.maxBatchSize < (mapInsert q none l.keyToEntryBatch).length →
        (DeleteLedgerEntry (some q) true true l).2.keyToEntryBatch = []) ∧
      ((mapInsert q none l.keyToEntryBatch).length ≤ l.maxBatchSize →
        (DeleteLedgerEntry (some q) true true l).2.keyToEntryBatch =
          mapInsert q none l.keyToEntryBatch) := by
    unfold DeleteLedgerEntry deleteLedgerEntry
    dsimp only
    by_cases hc : l.maxBatchSize < (mapInsert q none l.keyToEntryBatch).length
    · rw [if_pos hc, flush_all_ok]
      exact ⟨rfl, by simp, fun _ => rfl, fun hle2 => absurd hc (by omega)⟩
    · rw [if_neg hc]
      exact ⟨rfl, Nat.le_of_not_lt hc, fun hgt => absurd hgt hc, fun _ => rfl⟩
  exact ⟨hu.1, hu.2.1, hu.2.2.1, hu.2.2.2, hd.1, hd.2.1, hd.2.2.1, hd.2.2.2⟩

/-- Updater with `maxBatchSize = 1` for the C6 counterexample. -/
def c6SmallTx : LedgerUpdaterTx := NewLedgerEntryUpdaterTx emptyDBState 10 1

/-- C6 counterexample: one buffered delete on an empty buffer with
`maxBatchSize = 1` returns without error leaving the buffer at exactly
`maxBatchSize` — not strictly below it, contradicting the claim. -/
theorem c6_batch_flush_bounds_counterexample :
    (DeleteLedgerEntry (some "k") true true c6SmallTx).1 = false ∧
    (DeleteLedgerEntry (some "k") true true c6SmallTx).2.keyToEntryBatch.length =
      c6SmallTx.maxBatchSize ∧
    ¬ ((DeleteLedgerEntry (some "k") true true c6SmallTx).2.keyToEntryBatch.length <
      c6SmallTx.maxBatchSize) :=
  ⟨rfl, rfl, Nat.lt_irrefl 1⟩

/-- Updater with `maxBatchSize = 2` for the C6 witness. -/
def c6Tx2 : LedgerUpdaterTx := NewLedgerEntryUpdaterTx emptyDBState 10 2

theorem c6_batch_flush_bounds_witness :
    (UpsertLedgerEntry (some ("a", "x")) true true c6Tx2).2.keyToEntryBatch.length <
      c6Tx2.maxBatchSize ∧
    (DeleteLedgerEntry (some "b") true true c6Tx2).2.keyToEntryBatch.length ≤
      c6Tx2.maxBatchSize :=
  ⟨(c6_batch_flush_bounds "a" "x" "b" c6Tx2 (by decide) (by decide)).2.1,
   (c6_batch_flush_bounds "a" "x" "b" c6Tx2 (by decide) (by decide)).2.2.2.2.2.1⟩

/-! ### Claim C7 -/

/-- C7: The retry wrapper installed by `NewService` re-runs the whole
ingestion on transient failure at a constant 1-second interval, waiting at
most 5 times (at most 6 runs), checks cancellation at each wait, never
treats a cancellation outcome as fatal, and terminates the process
(`Fatal`) exactly when the retries were exhausted by transient errors —
in which case all 6 runs and all 5 one-second waits happened. -/
theorem c7_retry_policy (outcome : Nat → RunOutcome) (cdw : Nat → Bool) :
    (∀ w ∈ (NewServiceRetry outcome cdw).waits, w = 1) ∧
    (NewServiceRetry outcome cdw).waits.length ≤ 5 ∧
    (NewServiceRetry outcome cdw).runsExecuted ≤ 6 ∧
    (NewServiceFatal outcome cdw = true ↔
      (NewServiceRetry outcome cdw).outcome = RetryEnd.exhausted) ∧
    ((NewServiceRetry outcome cdw).outcome = RetryEnd.canceledEnd →
      NewServiceFatal outcome cdw = false) ∧
    ((NewServiceRetry outcome cdw).outcome = RetryEnd.exhausted →
      (NewServiceRetry outcome cdw).runsExecuted = 6 ∧
      (NewServiceRetry outcome cdw).waits.length = 5) := by
  obtain ⟨extra, h1, h2, h3, h4, h5⟩ := retryRun_spec outcome cdw 5 0 0 []
  have hw : (NewServiceRetry outcome cdw).waits = extra :=
    h1.trans (List.nil_append extra)
  have hfatal : NewServiceFatal outcome cdw = true ↔
      (NewServiceRetry outcome cdw).outcome = RetryEnd.exhausted := by
    unfold NewServiceFatal
    rcases (NewServiceRetry outcome cdw).outcome <;> simp
  refine ⟨?_, ?_, ?_, hfatal, ?_, ?_⟩
  · intro w hwmem
    rw [hw] at hwmem
    exact h2 w hwmem
  · rw [hw]
    exact h3
  · have h6 : (retryRun outcome cdw 0 5 0 []).runsExecuted ≤ 6 := by omega
    exact h6
  · intro hc
    cases hf : NewServiceFatal outcome cdw
    · rfl
    · have hex := hfatal.mp hf
      rw [hc] at hex
      exact absurd hex (by simp)
  · intro hex
    have hex' : (retryRun outcome cdw 0 5 0 []).outcome = RetryEnd.exhausted := hex
    obtain ⟨ha, hb⟩ := h5 hex'
    constructor
    · show (retryRun outcome cdw 0 5 0 []).runsExecuted = 6
      omega
    · show (retryRun outcome cdw 0 5 0 []).waits.length = 5
      rw [h1]
      simp [hb]

theorem c7_retry_policy_witness :
    (NewServiceRetry (fun _ => RunOutcome.transientErr) (fun _ => false)).runsExecuted
      = 6 ∧
    (NewServiceRetry (fun _ => RunOutcome.transientErr) (fun _ => false)).waits.length
      = 5 :=
  (c7_retry_policy (fun _ => RunOutcome.transientErr) (fun _ => false)).2.2.2.2.2
    (by rfl)

/-! ### Claim C8 -/

/-- C8: On driver start the latest sequence is read from the entry store;
with latest sequence `L` present, streaming starts at `L+1` with no
bootstrap; with an empty store, the most recent checkpoint sequence `C` is
taken from the archive root, the checkpoint entries are committed in one
write transaction at target sequence `C`, the ledger source is prepared
from `C+1`, and the bootstrap outcome is joined (a bootstrap failure fails
`run`) before streaming. -/
theorem c8_bootstrap (o : RunOracle) (db : EntryDB) :
    (∀ L, o.getLatest = GetLatestResult.found L →
      Service.run o db =
        if o.prepareRangeOk then Except.ok (L + 1, db) else Except.error ()) ∧
    (∀ C, o.getLatest = GetLatestResult.emptyDB → o.getRoot = Except.ok C →
      Service.run o db =
        if o.prepareRangeOk then
          match fillEntriesFromCheckpoint o db C with
          | (true, _) => Except.error ()
          | (false, db') => Except.ok (C + 1, db')
        else Except.error ()) ∧
    (∀ C, (fillEntriesFromCheckpoint o db C).1 = false →
      fillEntriesFromCheckpoint o db C =
        (false, { latest := some C, entries := o.checkpointEntries })) := by
  refine ⟨?_, ?_, ?_⟩
  · intro L hL
    unfold Service.run maybeFillEntriesFromCheckpoint
    rw [hL]
    rcases hp : o.prepareRangeOk with _ | _ <;> simp [hp]
  · intro C hE hR
    unfold Service.run maybeFillEntriesFromCheckpoint
    rw [hE, hR]
    rcases hp : o.prepareRangeOk with _ | _ <;> simp [hp]
  · intro C hfill
    unfold fillEntriesFromCheckpoint at hfill ⊢
    split_ifs at hfill ⊢ <;> simp_all

def c8Oracle : RunOracle :=
  { getLatest := GetLatestResult.found 7, getRoot := Except.ok 0,
    prepareRangeOk := true, checkpointReaderOk := true, newTxOk := true,
    ingestChangesOk := true, readerCloseOk := true, commitOk := true,
    checkpointEntries := [] }

def c8Db : EntryDB := { latest := some 7, entries := [] }

theorem c8_bootstrap_witness :
    Service.run c8Oracle c8Db =
      if c8Oracle.prepareRangeOk then Except.ok (7 + 1, c8Db)
      else Except.error () :=
  (c8_bootstrap c8Oracle c8Db).1 7 (by rfl)

/-! ### Claim C9 -/

/-- C9: `IngestEvents` on a parsed ledger-close record appends a bucket
holding exactly the events of the successful transactions (unsuccessful
transactions contribute none); on a parse failure the store is unchanged
and the error is returned. -/
theorem c9_successful_tx_events (m : MemoryStore) (lcm : LedgerCloseMeta) :
    ((m.IngestEvents lcm).1 = true → (m.IngestEvents lcm).2 = m) ∧
    (∀ txs, lcm.txRead = .ok txs → (m.IngestEvents lcm).1 = false →
      (m.IngestEvents lcm).2.eventsByLedger =
        m.eventsByLedger.Append
          { LedgerSeq := lcm.seq, LedgerCloseTimestamp := lcm.closeTime,
            BucketContent := successfulTxEvents txs }) :=
  ingestEvents_spec m lcm

def c9Lcm : LedgerCloseMeta :=
  { seq := 3, closeTime := 0,
    txRead := Except.ok
      [{ index := 0, successful := false, opEvents := [Except.ok [{ id := 1 }]] },
       { index := 1, successful := true, opEvents := [Except.ok [{ id := 2 }]] }],
    closeOk := true }

def c9Store : MemoryStore := { eventsByLedger := { capacity := 4, buckets := [] } }

theorem c9_successful_tx_events_witness :
    (c9Store.IngestEvents c9Lcm).2.eventsByLedger =
      c9Store.eventsByLedger.Append
        { LedgerSeq := c9Lcm.seq, LedgerCloseTimestamp := c9Lcm.closeTime,
          BucketContent := successfulTxEvents
            [{ index := 0, successful := false, opEvents := [Except.ok [{ id := 1 }]] },
             { index := 1, successful := true, opEvents := [Except.ok [{ id := 2 }]] }] } :=
  (c9_successful_tx_events c9Store c9Lcm).2
    [{ index := 0, successful := false, opEvents := [Except.ok [{ id := 1 }]] },
     { index := 1, successful := true, opEvents := [Except.ok [{ id := 2 }]] }]
    (by rfl) (by rfl)

/-! ### Claim C10 -/

/-- C10: Whenever `UpsertLedgerEntry` or `DeleteLedgerEntry` returns an
error, the write transaction has been rolled back before returning — the
reader-visible store is untouched and the pending writes are discarded —
and `Done` likewise rolls back when the final flush or the
latest-sequence update fails. -/
theorem c10_rollback_on_error (encU : Option (String × String)) (encD : Option String)
    (uOk dOk sOk cOk hOk : Bool) (l : LedgerUpdaterTx) :
    ((UpsertLedgerEntry encU uOk dOk l).1 = true →
      (UpsertLedgerEntry encU uOk dOk l).2.committedDB = l.committedDB ∧
      (UpsertLedgerEntry encU uOk dOk l).2.txOpen = false ∧
      (UpsertLedgerEntry encU uOk dOk l).2.txPending = l.committedDB) ∧
    ((DeleteLedgerEntry encD uOk dOk l).1 = true →
      (DeleteLedgerEntry encD uOk dOk l).2.committedDB = l.committedDB ∧
      (DeleteLedgerEntry encD uOk dOk l).2.txOpen = false ∧
      (DeleteLedgerEntry encD uOk dOk l).2.txPending = l.committedDB) ∧
    ((doneInner uOk dOk sOk l).1 = true →
      (Done uOk dOk sOk cOk hOk l).1 = true ∧
      (Done uOk dOk sOk cOk hOk l).2.1.committedDB = l.committedDB ∧
      (Done uOk dOk sOk cOk hOk l).2.1.txOpen = false ∧
      (Done uOk dOk sOk cOk hOk l).2.1.txPending = l.committedDB) :=
  ⟨upsert_error_rolls_back encU uOk dOk l,
   delete_error_rolls_back encD uOk dOk l,
   done_rolls_back uOk dOk sOk cOk hOk l⟩

theorem c10_rollback_on_error_witness :
    (UpsertLedgerEntry none true true freshTx).2.committedDB = freshTx.committedDB ∧
    (UpsertLedgerEntry none true true freshTx).2.txOpen = false :=
  ⟨((c10_rollback_on_error none none true true true true true freshTx).1 (by rfl)).1,
   ((c10_rollback_on_error none none true true true true true freshTx).1 (by rfl)).2.1⟩

end Soroban
